import Mathlib

/-!
# MIDI organ player (`src/main.cpp`): a shallow embedding and its verified properties

The program turns a MIDI performance into relay pulses for a small bank of organ
pipes.  This file embeds the stages of `main` as Lean functions and proves (or
refutes) statements about them.

Modelling conventions, used throughout:

* C `int` / `long` / `unsigned` values are unbounded `Int` / `Nat`: every quantity here
  is a MIDI byte, an index below 128 or a time in milliseconds, and the statements are
  about runs in which no 32-bit quantity wraps.
* A finite C `double` (`velocity`, `weight`, `tempo`, `timebase`) is a rational number
  `ℚ`.  The arithmetic on doubles rounds, so it is a parameter (`DoubleOps`): every
  general statement holds for all rounding behaviours, hence for IEEE arithmetic.
  Concrete evaluations use `exactOps`, the arithmetic without rounding, on inputs whose
  decisive values binary floating point represents exactly; `ieeeOps` rounds to binary64
  and shows where rounding changes a result.  Comparisons of doubles and the conversion
  `(int)x` are exact operations on the value.
* A `Pipe *` is the index of the pipe in `pipes[]`; the null pointer is `none`.
* `keys[k].pipe` is a function `Nat → Option Nat` of the slot index `k`; the array
  proper is the slots `0 .. 127`.
* The MidiFile and Yoctopuce libraries are not part of the repository.  The event
  classifiers of the former are a parameter (`MidiLib`); the clock of the latter is
  driven by an arbitrary sequence of non-negative delays (`Jitter`).
-/

namespace MidiOrgan

/-! ## Data model (lines 15-43) -/

/-- The `Note` record of lines 26-32. -/
structure Note where
  channel : Int
  time : Int
  key : Nat
  duration : Int
  velocity : ℚ
deriving DecidableEq

/-- The `pipe` fields of `keys[]`: slot index to pipe index, `none` for a null pointer. -/
abbrev KeyTable := Nat → Option Nat

/-- The C conversion `(int)x` of a `double`: truncation toward zero. -/
def truncToInt (x : ℚ) : Int :=
  if 0 ≤ x then ⌊x⌋ else ⌈x⌉

/-- The arithmetic of C doubles on finite values: the rounded sum, product and quotient.
Rounding never changes the sign of a result, which is all that is assumed. -/
structure DoubleOps where
  add : ℚ → ℚ → ℚ
  mul : ℚ → ℚ → ℚ
  div : ℚ → ℚ → ℚ
  add_nonneg : ∀ a b : ℚ, 0 ≤ a → 0 ≤ b → 0 ≤ add a b
  mul_nonneg : ∀ a b : ℚ, 0 ≤ a → 0 ≤ b → 0 ≤ mul a b
  div_nonneg : ∀ a b : ℚ, 0 ≤ a → 0 ≤ b → 0 ≤ div a b

/-- Arithmetic without rounding, for evaluations on exactly representable values. -/
def exactOps : DoubleOps :=
  { add := fun a b => a + b
    mul := fun a b => a * b
    div := fun a b => a / b
    add_nonneg := fun _ _ ha hb => add_nonneg ha hb
    mul_nonneg := fun _ _ ha hb => mul_nonneg ha hb
    div_nonneg := fun _ _ ha hb => div_nonneg ha hb }

/-- The power `2 ^ s` for an integer exponent. -/
def pow2 (s : Int) : ℚ :=
  if 0 ≤ s then ((2 ^ s.toNat : Nat) : ℚ) else 1 / ((2 ^ (-s).toNat : Nat) : ℚ)

/-- Rounding to the nearest integer, ties to the even one. -/
def roundHalfEven (q : ℚ) : Int :=
  if q - (⌊q⌋ : ℚ) < 1 / 2 then ⌊q⌋
  else if q - (⌊q⌋ : ℚ) > 1 / 2 then ⌊q⌋ + 1
  else if ⌊q⌋ % 2 = 0 then ⌊q⌋ else ⌊q⌋ + 1

/-- The number of times `n` can be halved before it falls below 2, at most `fuel` times:
`⌊log₂ n⌋` when `1 ≤ n ≤ fuel`. -/
def halvings : Nat → Nat → Nat
  | 0, _ => 0
  | fuel + 1, n => if n < 2 then 0 else halvings fuel (n / 2) + 1

/-- The exponent `⌊log₂ n⌋` of the leading bit of `n ≥ 1`. -/
def floorLog2 (n : Nat) : Nat :=
  halvings n n

/-- The binary exponent `e` of `x ≠ 0`: `2 ^ e ≤ |x| < 2 ^ (e + 1)`. -/
def binade (x : ℚ) : Int :=
  if pow2 ((floorLog2 x.num.natAbs : Int) - (floorLog2 x.den : Int)) ≤ |x| then
    (floorLog2 x.num.natAbs : Int) - (floorLog2 x.den : Int)
  else (floorLog2 x.num.natAbs : Int) - (floorLog2 x.den : Int) - 1

/-- Rounding to the nearest IEEE binary64 value (53 significant bits, ties to even), for
values in the normal range of the format. -/
def roundDouble (x : ℚ) : ℚ :=
  if 0 ≤ x then
    (roundHalfEven (x / pow2 (binade x - 52)) : ℚ) * pow2 (binade x - 52)
  else
    -((roundHalfEven (-x / pow2 (binade x - 52)) : ℚ) * pow2 (binade x - 52))

/-- IEEE binary64 arithmetic on values in the normal range: each operation returns the
exact result rounded to the nearest double. -/
def ieeeOps : DoubleOps :=
  { add := fun a b => roundDouble (a + b)
    mul := fun a b => roundDouble (a * b)
    div := fun a b => roundDouble (a / b)
    add_nonneg := fun a b ha hb => roundNonneg (a + b) (add_nonneg ha hb)
    mul_nonneg := fun a b ha hb => roundNonneg (a * b) (mul_nonneg ha hb)
    div_nonneg := fun a b ha hb => roundNonneg (a / b) (div_nonneg ha hb) }
where
  roundNonneg (x : ℚ) (hx : 0 ≤ x) : 0 ≤ roundDouble x := by
    have hp : ∀ s : Int, 0 ≤ pow2 s := by
      intro s
      unfold pow2
      split_ifs <;> positivity
    have hq : 0 ≤ x / pow2 (binade x - 52) := div_nonneg hx (hp _)
    have hf : 0 ≤ ⌊x / pow2 (binade x - 52)⌋ := Int.floor_nonneg.mpr hq
    have hr : 0 ≤ roundHalfEven (x / pow2 (binade x - 52)) := by
      unfold roundHalfEven
      split_ifs <;> omega
    unfold roundDouble
    rw [if_pos hx]
    exact mul_nonneg (by exact_mod_cast hr) (hp _)

/-- The expression `floor(x + 0.5)` of line 188: round half up, the sum being a double
addition. -/
def roundHalfUp (ops : DoubleOps) (x : ℚ) : Int :=
  ⌊ops.add x (1 / 2)⌋

/-! ## Timeline extraction (lines 123-194) -/

/-- An event of the joined track as the MidiFile library hands it out: absolute tick
(a sum of the file's delta times, hence a natural number), track and raw bytes. -/
structure MFEvent where
  time : Nat
  track : Int
  data : List Nat
deriving DecidableEq

/-- The event classifiers of the MidiFile library that `main` calls. -/
structure MidiLib where
  isTimbre : MFEvent → Bool
  isTempo : MFEvent → Bool
  isNoteOn : MFEvent → Bool
  isNoteOff : MFEvent → Bool
  getChannelNibble : MFEvent → Nat

/-- The byte `iEvent.data[k]`. -/
def dataAt (e : MFEvent) (k : Nat) : Nat :=
  e.data.getD k 0

/-- The variables of the extraction loop: `volume[]`, `tempo`, `timebase`, `currtime`,
`oldticks` and the `notes` vector. -/
structure Extractor where
  volume : Nat → Int
  tempo : ℚ
  timebase : ℚ
  currtime : Int
  oldticks : Nat
  notes : List Note

/-- The `while` loop of lines 176-186, over the events after the note-on `iEvent`.
`note.duration` is `0` whenever the loop condition is tested; the result is the
`notes` vector after the loop. -/
def scanNoteOff (ops : DoubleOps) (lib : MidiLib) (iEvent : MFEvent) (timebase : ℚ)
    (note : Note) (notes : List Note) : List MFEvent → List Note
  | [] => notes
  | jEvent :: later =>
    if lib.isNoteOff jEvent = true ∧ jEvent.track = iEvent.track
        ∧ dataAt jEvent 1 = note.key then
      let duration :=
        truncToInt (ops.mul (((jEvent.time : Int) - (iEvent.time : Int) : Int) : ℚ) timebase)
      if duration = 0 then scanNoteOff ops lib iEvent timebase note notes later
      else if duration > 0 then notes ++ [{ note with duration := duration }]
      else notes
    else scanNoteOff ops lib iEvent timebase note notes later

/-- The branch chain of lines 133-187 for the event `e`; `later` are the events after
it.  The track-name branch only prints. -/
def dispatchEvent (ops : DoubleOps) (lib : MidiLib) (tpq : Nat) (later : List MFEvent)
    (x : Extractor) (e : MFEvent) : Extractor :=
  let channel := lib.getChannelNibble e + 1
  if lib.isTimbre e = true ∧ x.volume channel ≠ 0 then
    if dataAt e 1 ≥ 112 then
      if x.volume channel > 0 then
        { x with volume := Function.update x.volume channel (-x.volume channel) }
      else x
    else
      if x.volume channel < 0 then
        { x with volume := Function.update x.volume channel (-x.volume channel) }
      else x
  else if (dataAt e 0 &&& 0xf0) = 0xb0 ∧ x.volume channel > 0 ∧ dataAt e 1 = 7 then
    { x with volume := Function.update x.volume channel ((dataAt e 2 * 10 / 127 : Nat) : Int) }
  else if e.data.length > 3 ∧ dataAt e 0 = 0xff ∧ dataAt e 1 = 0x03 then
    x
  else if lib.isTempo e = true then
    let usecs : Nat := (dataAt e 3 <<< 16) + (dataAt e 4 <<< 8) + (dataAt e 5 <<< 0)
    let tempo : ℚ := ops.div 60000000 (usecs : ℚ)
    { x with tempo := tempo, timebase := ops.div (ops.div 60000 tempo) (tpq : ℚ) }
  else if lib.isNoteOn e = true ∧ x.volume channel > 0 then
    let note : Note :=
      { channel := channel
        time := x.currtime
        key := dataAt e 1
        velocity := ops.div (((dataAt e 2 : Int) * x.volume channel : Int) : ℚ) 1270
        duration := 0 }
    { x with notes := scanNoteOff ops lib e x.timebase note x.notes later }
  else x

/-- One iteration of the loop of lines 130-190: the branch chain, then the clock
update of lines 188-189. -/
def processEvent (ops : DoubleOps) (lib : MidiLib) (tpq : Nat) (later : List MFEvent)
    (x : Extractor) (e : MFEvent) : Extractor :=
  let x1 := dispatchEvent ops lib tpq later x e
  { x1 with
    currtime := x1.currtime
      + roundHalfUp ops
          (ops.mul (((e.time : Int) - (x1.oldticks : Int) : Int) : ℚ) x1.timebase)
    oldticks := e.time }

/-- The loop of lines 130-190 over the remaining events. -/
def extractFrom (ops : DoubleOps) (lib : MidiLib) (tpq : Nat) :
    Extractor → List MFEvent → Extractor
  | x, [] => x
  | x, e :: later => extractFrom ops lib tpq (processEvent ops lib tpq later x e) later

/-- Lines 127-129: the loop variables before the first event, for the start tempo and
channel volumes that the command line left. -/
def initExtractor (ops : DoubleOps) (tempo : ℚ) (volume : Nat → Int) (tpq : Nat) :
    Extractor :=
  { volume := volume
    tempo := tempo
    timebase := ops.div (ops.div 60000 tempo) (tpq : ℚ)
    currtime := 0
    oldticks := 0
    notes := [] }

/-- Lines 123-190: the notes extracted from the event list. -/
def extractNotes (ops : DoubleOps) (lib : MidiLib) (tempo : ℚ) (volume : Nat → Int)
    (tpq : Nat) (events : List MFEvent) : List Note :=
  (extractFrom ops lib tpq (initExtractor ops tempo volume tpq) events).notes

/-- Lines 75-78: the channel volumes before the command line is read. -/
def defaultVolume : Nat → Int :=
  fun channel => if channel = 10 then 0 else 10

/-! ## Pipe assignment (lines 196-251) -/

/-- Lines 197-200: `keys[k].weight` after the counting loop. -/
def countWeights (ops : DoubleOps) (notes : List Note) : Nat → ℚ :=
  notes.foldl
    (fun w note =>
      Function.update w note.key
        (ops.add (w note.key) (ops.mul (note.duration : ℚ) note.velocity)))
    (fun _ => 0)

/-- The inner loop of lines 208-213: the weight reached with the lowest pipe on key
`i`, accumulated by double additions in pipe order; `pipes` lists `pipes[j].key` in
discovery order. -/
def score (ops : DoubleOps) (weights : Nat → ℚ) (pipes : List Nat) (i : Nat) : ℚ :=
  pipes.foldl
    (fun weight key => if i + key < 128 then ops.add weight (weights (i + key)) else weight) 0

/-- Lines 214-217 for candidate `i`; the state is `(baseweight, basenote)`. -/
def searchStep (ops : DoubleOps) (weights : Nat → ℚ) (pipes : List Nat) (st : ℚ × Nat)
    (i : Nat) : ℚ × Nat :=
  if st.1 < score ops weights pipes i then (score ops weights pipes i, i) else st

/-- The search of lines 205-218 over the candidates `0 .. n-1`, from `baseweight = 0`
and the initial `basenote = 43` of line 34. -/
def searchUpTo (ops : DoubleOps) (weights : Nat → ℚ) (pipes : List Nat) (n : Nat) : ℚ × Nat :=
  (List.range n).foldl (searchStep ops weights pipes) (0, 43)

/-- Lines 205-218: the value of `basenote` after the search. -/
def bestBasenote (ops : DoubleOps) (weights : Nat → ℚ) (pipes : List Nat) : Nat :=
  (searchUpTo ops weights pipes 127).2

/-- Lines 221-225.  The guard reads `pipes[j]` with the `j` that the search loop left,
which is `npipes`: a slot after the discovered pipes, zeroed by line 74. -/
def assignPipes (basenote : Nat) (pipes : List Nat) (keys : KeyTable) : KeyTable :=
  (List.range pipes.length).foldl
    (fun ks i =>
      if basenote + pipes.getD pipes.length 0 < 128 then
        Function.update ks (basenote + pipes.getD i 0) (some i)
      else ks)
    keys

/-- The body of the upward folding loops (lines 230-232, 241-243, 247-249). -/
def foldUpStep (interval : Nat) (keys : KeyTable) (i : Nat) : KeyTable :=
  if keys (i + interval) = none ∧ keys i ≠ none then
    Function.update keys (i + interval) (keys i)
  else keys

/-- The body of the downward octave loop (lines 235-237). -/
def foldDownStep (keys : KeyTable) (i : Nat) : KeyTable :=
  if keys (i - 12) = none ∧ keys i ≠ none then
    Function.update keys (i - 12) (keys i)
  else keys

/-- An upward loop `for(i = 0; i < 128-interval; i++)`: the table after it and the
value it leaves in `i`. -/
def foldUp (interval : Nat) (keys : KeyTable) : KeyTable × Nat :=
  ((List.range (128 - interval)).foldl (foldUpStep interval) keys, 128 - interval)

/-- Lines 229-238: octave up, then octave down for `i = 127, ..., 12`. -/
def foldOctaves (keys : KeyTable) : KeyTable :=
  (List.range' 12 116).reverse.foldl foldDownStep (foldUp 12 keys).1

/-- Lines 240-244: fifths. -/
def foldFifths (keys : KeyTable) : KeyTable :=
  (foldUp 7 keys).1

/-- Lines 246-250: the `+16` pass, with the value it leaves in `i`. -/
def foldThirds (keys : KeyTable) : KeyTable × Nat :=
  foldUp 16 keys

/-- The sum of `showQuality` (lines 52-57): the weight of the keys that have a pipe.
The sum is only printed; it is kept exact here (a rounded sum of non-negative terms is
monotone in the same way). -/
def coveredWeight (keys : KeyTable) (weights : Nat → ℚ) : ℚ :=
  (List.range 128).foldl (fun weight i => if (keys i).isSome then weight + weights i else weight) 0

/-! ## Dynamics (lines 253-266) -/

/-- Lines 253-266 when `applyvol` is set.  `i` is the value of the shared loop variable
on entry; `notes.at(i)` throws `std::out_of_range` when `i` is not an index of the
vector, which is `none` here. -/
def applyDynamics (ops : DoubleOps) (i : Nat) (notes : List Note) : Option (List Note) :=
  match notes.get? i with
  | none => none
  | some seed =>
    let maxVelocity := (notes.drop 1).foldl
      (fun mv note => if mv < note.velocity then note.velocity else mv) seed.velocity
    some (notes.map fun note =>
      { note with
        duration :=
          truncToInt (ops.mul (note.duration : ℚ) (ops.div note.velocity maxVelocity)) })

/-! ## Conflict resolution (lines 268-295) -/

/-- The inner `while` loop of lines 275-293, run over the notes that follow `note`
(`rest` is `notes[j..]`).  `pipe` is `keys[note.key].pipe` and `endTime` the value
computed at line 273.  The result is the possibly shortened `note` and the possibly
modified followers. -/
def scanConflicts (keys : KeyTable) (pipe : Nat) (note : Note) (endTime : Int) :
    List Note → Note × List Note
  | [] => (note, [])
  | nextNote :: rest =>
    if nextNote.time ≥ endTime + 10 then
      (note, nextNote :: rest)
    else if keys nextNote.key = some pipe then
      if nextNote.time > note.time + 20 ∧ nextNote.velocity > note.velocity then
        ({ note with duration := nextNote.time - note.time - 10 },
          (if nextNote.time + nextNote.duration + 20 < endTime then
              { nextNote with duration := endTime - nextNote.time }
            else nextNote) :: rest)
      else
        let r := scanConflicts keys pipe note endTime rest
        (r.1, { nextNote with duration := 0 } :: r.2)
    else
      let r := scanConflicts keys pipe note endTime rest
      (r.1, nextNote :: r.2)

/-- The outer `for` loop of lines 269-295 from index `i` on: `todo` is the number of
iterations left (`notes.size() - i`) and the list is `notes[i..]`; the notes before
`i` are no longer touched. -/
def resolveFrom (keys : KeyTable) : Nat → List Note → List Note
  | 0, notes => notes
  | _ + 1, [] => []
  | todo + 1, note :: rest =>
    match keys note.key with
    | none => note :: resolveFrom keys todo rest
    | some pipe =>
      let r := scanConflicts keys pipe note (note.time + note.duration) rest
      r.1 :: resolveFrom keys todo r.2

/-- Lines 268-295: the whole conflict-resolution pass. -/
def resolveConflicts (keys : KeyTable) (notes : List Note) : List Note :=
  resolveFrom keys notes.length notes

/-! ## Playback (lines 297-351) -/

/-- The delays of the environment: `jit k` is the time in ms that passes before the
`k`-th clock call answers (for a sleep: the oversleep beyond the requested time). -/
abbrev Jitter := Nat → Nat

/-- The wall clock: its current value and the number of clock calls made so far. -/
structure Clock where
  now : Int
  calls : Nat
deriving DecidableEq

/-- The call `YAPI::GetTickCount()`: the reading and the clock after it.  Readings
never decrease. -/
def getTickCount (jit : Jitter) (c : Clock) : Int × Clock :=
  (c.now + jit c.calls, { now := c.now + jit c.calls, calls := c.calls + 1 })

/-- The call `YAPI::Sleep(w, errmsg)`: the clock advances by at least `w`. -/
def sleep (jit : Jitter) (w : Int) (c : Clock) : Clock :=
  { now := c.now + w + jit c.calls, calls := c.calls + 1 }

/-- A call `relay->delayedPulse(delay, duration)` on the relay of `pipe`, with the
value of the clock when it is issued.  The pulse fires at `issuedAt + delay`. -/
structure PulseCmd where
  pipe : Nat
  delay : Int
  duration : Int
  issuedAt : Int
deriving DecidableEq

/-- The time at which the relay closes. -/
def PulseCmd.fireTime (c : PulseCmd) : Int :=
  c.issuedAt + c.delay

/-- The state of the playback loop: `startTime`, the `busyUntil` field of every pipe,
the clock, and the pulse commands issued so far, oldest first. -/
structure Player where
  startTime : Int
  busyUntil : Nat → Int
  clock : Clock
  pulses : List PulseCmd

/-- Lines 308-321: wait for the pipe, or give earlier commands up to 25 ms. -/
def waitForPipe (jit : Jitter) (startTime busyUntil : Int) (note : Note) (c : Clock) : Clock :=
  let r := getTickCount jit c
  let waitTime := busyUntil - r.1
  if waitTime > 0 then
    sleep jit waitTime r.2
  else
    let f := getTickCount jit r.2
    let flushTime := startTime + note.time - f.1 - 4
    let flushTime := if flushTime > 25 then 25 else flushTime
    if flushTime > 0 then sleep jit flushTime f.2 else f.2

/-- Lines 324-330: the new `startTime`, the delay `waitTime` and the clock. -/
def computeWait (jit : Jitter) (startTime : Int) (note : Note) (c : Clock) : Int × Int × Clock :=
  let r := getTickCount jit c
  let waitTime := startTime + note.time - r.1
  if waitTime < 0 then
    let late := getTickCount jit r.2
    (late.1 - note.time, 0, late.2)
  else (startTime, waitTime, r.2)

/-- One iteration of the loop of lines 301-351. -/
def playNote (jit : Jitter) (keys : KeyTable) (mute : Bool) (s : Player) (note : Note) : Player :=
  if note.duration ≤ 0 then s
  else
    match keys note.key with
    | none => s
    | some pipe =>
      let c := waitForPipe jit s.startTime (s.busyUntil pipe) note s.clock
      let w := computeWait jit s.startTime note c
      if note.duration > 0 then
        { startTime := w.1
          busyUntil := Function.update s.busyUntil pipe (w.1 + note.time + note.duration)
          clock := w.2.2
          pulses :=
            if mute then s.pulses
            else s.pulses ++ [{ pipe := pipe, delay := w.2.1, duration := note.duration,
                                issuedAt := w.2.2.now }] }
      else { s with startTime := w.1, clock := w.2.2 }

/-- Line 299 and the zeroed `pipes[]` of line 74: the state before the loop, for the
start time of the first note. -/
def startPlayer (jit : Jitter) (firstTime : Int) : Player :=
  let r := getTickCount jit { now := 0, calls := 0 }
  { startTime := r.1 + 100 - firstTime
    busyUntil := fun _ => 0
    clock := r.2
    pulses := [] }

/-- Lines 297-351.  `notes.at(firstnote)` throws on an empty vector (`none`). -/
def playback (jit : Jitter) (keys : KeyTable) (mute : Bool) (notes : List Note) : Option Player :=
  match notes with
  | [] => none
  | first :: _ => some (notes.foldl (playNote jit keys mute) (startPlayer jit first.time))

/-! ## The whole run (lines 61-354) -/

/-- What the command line leaves: the flags `-dyn`, `-mute`, `-max:`, the start tempo
and the channel volumes. -/
structure Config where
  applyvol : Bool
  mute : Bool
  maxtune : Int
  tempo : ℚ
  volume : Nat → Int

/-- Lines 107-121: the `key` fields of `pipes[0 .. npipes-1]`.  `tunes` lists, in
enumeration order, the numbers of the relays whose name starts with `tune`. -/
def discoverPipes (maxtune : Int) (tunes : List Nat) : List Nat :=
  tunes.filter (fun tune => (tune : Int) ≤ maxtune)

/-- How a run ends: `exit(code)` or `return code` with the pulse commands issued, or
an uncaught `std::out_of_range`. -/
inductive Outcome where
  | exited (code : Int) (pulses : List PulseCmd)
  | aborted
deriving DecidableEq

/-- The pulse commands of a run. -/
def Outcome.pulses : Outcome → List PulseCmd
  | .exited _ pulses => pulses
  | .aborted => []

/-- The body of `main` after the command line is read (lines 106-353), for the relays
`tunes`, the events `events` of the joined track with `tpq` ticks per quarter note,
and the clock behaviour `jit`. -/
def organMain (ops : DoubleOps) (cfg : Config) (lib : MidiLib) (tunes : List Nat)
    (tpq : Nat) (events : List MFEvent) (jit : Jitter) : Outcome :=
  let pipes := discoverPipes cfg.maxtune tunes
  let notes := extractNotes ops lib cfg.tempo cfg.volume tpq events
  if notes.length = 0 then Outcome.exited 1 []
  else
    let weights := countWeights ops notes
    let basenote := bestBasenote ops weights pipes
    let direct := assignPipes basenote pipes (fun _ => none)
    let thirds := foldThirds (foldFifths (foldOctaves direct))
    match (if cfg.applyvol then applyDynamics ops thirds.2 notes else some notes) with
    | none => Outcome.aborted
    | some notes =>
      match playback jit thirds.1 cfg.mute (resolveConflicts thirds.1 notes) with
      | none => Outcome.aborted
      | some player => Outcome.exited 0 player.pulses

/-! ## Predicates used in the statements -/

/-- Start-time order of a note list. -/
def TimeOrdered (notes : List Note) : Prop :=
  notes.Pairwise (fun a b => a.time ≤ b.time)

/-- Every note of the list that sounds on pipe `p` and starts before `T` is cancelled. -/
def SilentBefore (keys : KeyTable) (p : Nat) (T : Int) (notes : List Note) : Prop :=
  ∀ n ∈ notes, keys n.key = some p → n.time < T → n.duration ≤ 0

/-- An earlier note `n` and a later note `m`: when both sound on the same pipe and both
have a positive duration, `n` ends at most 10 ms after `m` starts. -/
def GraceApart (keys : KeyTable) (n m : Note) : Prop :=
  ∀ p, keys n.key = some p → keys m.key = some p →
    0 < n.duration → 0 < m.duration → n.time + n.duration ≤ m.time + 10

/-- Two pulse commands, `c1` issued before `c2`: when they go to the same pipe, `c2`
fires no earlier than `c1` fires plus the time `c1` sustains. -/
def Exclusive (c1 c2 : PulseCmd) : Prop :=
  c1.pipe = c2.pipe → c1.issuedAt + c1.delay + c1.duration ≤ c2.issuedAt + c2.delay

/-- The bookkeeping invariant of the playback loop: the issued commands are pairwise
exclusive and every pipe is recorded busy until its issued pulses have ended. -/
def PlayerOk (s : Player) : Prop :=
  s.pulses.Pairwise Exclusive
    ∧ ∀ c ∈ s.pulses, c.issuedAt + c.delay + c.duration ≤ s.busyUntil c.pipe

/-- The loop invariant of the extraction: the tick-to-ms factor is not negative, the
notes pushed so far are in start-time order, and none starts after the clock. -/
def ExtractorOk (x : Extractor) : Prop :=
  0 ≤ x.timebase ∧ TimeOrdered x.notes ∧ ∀ n ∈ x.notes, n.time ≤ x.currtime

/-- The test of lines 178-179: `jEvent` is a note-off on the track of `iEvent` for the
key `key`. -/
def isMatchingOff (lib : MidiLib) (iEvent : MFEvent) (key : Nat) (jEvent : MFEvent) : Bool :=
  lib.isNoteOff jEvent && decide (jEvent.track = iEvent.track)
    && decide (dataAt jEvent 1 = key)

/-- The value of line 180 for the note-off `jEvent`. -/
def offDuration (ops : DoubleOps) (iEvent : MFEvent) (timebase : ℚ) (jEvent : MFEvent) : Int :=
  truncToInt (ops.mul (((jEvent.time : Int) - (iEvent.time : Int) : Int) : ℚ) timebase)

/-- The duration computed from the first matching note-off, in scan order, for which
that duration is not zero. -/
def firstSoundingOff (ops : DoubleOps) (lib : MidiLib) (iEvent : MFEvent) (key : Nat)
    (timebase : ℚ) (later : List MFEvent) : Option Int :=
  ((later.filter (isMatchingOff lib iEvent key)).map (offDuration ops iEvent timebase)).find?
    (fun d => decide (d ≠ 0))

/-- The clock reading of line 324 when `note` is scheduled on `pipe` from state `s`. -/
def readingAtSchedule (jit : Jitter) (s : Player) (note : Note) (pipe : Nat) : Int :=
  (getTickCount jit (waitForPipe jit s.startTime (s.busyUntil pipe) note s.clock)).1

/-- The clock reading of line 328, taken when the scheduler is late. -/
def readingAtResync (jit : Jitter) (s : Player) (note : Note) (pipe : Nat) : Int :=
  (getTickCount jit
    (getTickCount jit (waitForPipe jit s.startTime (s.busyUntil pipe) note s.clock)).2).1

/-- The slots up to `k` of the pitch class of `k`: some `k - 12 j` has a pipe. -/
def AssignedBelow (keys : KeyTable) (k : Nat) : Prop :=
  ∃ j, 12 * j ≤ k ∧ (keys (k - 12 * j)).isSome = true

/-- The slots from `k` up to 127 of the pitch class of `k`: some `k + 12 j` has a pipe. -/
def AssignedAbove (keys : KeyTable) (k : Nat) : Prop :=
  ∃ j, k + 12 * j < 128 ∧ (keys (k + 12 * j)).isSome = true

/-! ## Concrete inputs used in the evaluations below -/

/-- A key table with the single pipe 0 on key 60. -/
def oneKey : KeyTable :=
  fun k => if k = 60 then some 0 else none

/-- A quiet note of 200 ms on key 60. -/
def quietNote : Note :=
  { channel := 1, time := 0, key := 60, duration := 200, velocity := 1 / 2 }

/-- A louder note on key 60 that starts 100 ms later and ends 10 ms before `quietNote`. -/
def loudNote : Note :=
  { channel := 1, time := 100, key := 60, duration := 90, velocity := 3 / 4 }

/-- A louder note on key 60 that starts 100 ms later and lasts 50 ms. -/
def briefLoudNote : Note :=
  { channel := 1, time := 100, key := 60, duration := 50, velocity := 3 / 4 }

/-- An event classifier that reads the MIDI status byte, for concrete evaluations. -/
def statusByteLib : MidiLib :=
  { isTimbre := fun e => (dataAt e 0 &&& 0xf0) == 0xc0
    isTempo := fun e => dataAt e 0 == 0xff && dataAt e 1 == 0x51
    isNoteOn := fun e => (dataAt e 0 &&& 0xf0) == 0x90 && decide (dataAt e 2 > 0)
    isNoteOff := fun e =>
      (dataAt e 0 &&& 0xf0) == 0x80 || ((dataAt e 0 &&& 0xf0) == 0x90 && dataAt e 2 == 0)
    getChannelNibble := fun e => dataAt e 0 &&& 0x0f }

/-- A note-on for key 60 with velocity 100 on channel 1, at tick 0 of track 0. -/
def noteOnEvent : MFEvent :=
  { time := 0, track := 0, data := [0x90, 60, 100] }

/-- The note-off for key 60 on channel 1, three ticks later on the same track. -/
def noteOffEvent : MFEvent :=
  { time := 3, track := 0, data := [0x80, 60, 0] }

/-- A weight histogram with weight 100 on key 60 only. -/
def oneKeyWeights : Nat → ℚ :=
  fun k => if k = 60 then 100 else 0

/-- A piece of 113 notes of 100 ms whose first note is the loudest. -/
def loudestFirst : List Note :=
  { channel := 1, time := 0, key := 60, duration := 100, velocity := 1 }
    :: List.replicate 112 { channel := 1, time := 10, key := 62, duration := 100, velocity := 1 / 2 }

/-- The configuration of a run without options: no dynamics, pulses sent, `maxtune` 99,
tempo 120 and the default channel volumes. -/
def plainConfig : Config :=
  { applyvol := false, mute := false, maxtune := 99, tempo := 120, volume := defaultVolume }

/-- Two notes of 100 ms on the keys 100 and 102. -/
def highNotes : List Note :=
  [{ channel := 1, time := 0, key := 100, duration := 100, velocity := 1 / 2 },
   { channel := 1, time := 200, key := 102, duration := 100, velocity := 1 / 2 }]

/-- A note-off for key 60 on channel 1 at the tick of `noteOnEvent`. -/
def sameTickOffEvent : MFEvent :=
  { time := 0, track := 0, data := [0x80, 60, 0] }

/-- A second note-off for key 60 on channel 1, four ticks after `noteOnEvent`. -/
def lateOffEvent : MFEvent :=
  { time := 4, track := 0, data := [0x80, 60, 0] }

/-- A run with the `-dyn` option and nothing else. -/
def dynConfig : Config :=
  { applyvol := true, mute := false, maxtune := 99, tempo := 120, volume := defaultVolume }

/-- A cancelled note on key 60. -/
def cancelledNote : Note :=
  { channel := 1, time := 50, key := 60, duration := 0, velocity := 1 / 2 }

/-- A change to instrument 115, a percussion voice, on channel 1. -/
def percussionEvent : MFEvent :=
  { time := 0, track := 0, data := [0xc0, 115] }

/-- A note-on for key 36 on channel 10, whose default volume is 0. -/
def drumOnEvent : MFEvent :=
  { time := 0, track := 0, data := [0x99, 36, 100] }

/-- The note-off for key 36 on channel 10, three ticks later. -/
def drumOffEvent : MFEvent :=
  { time := 3, track := 0, data := [0x89, 36, 0] }

/-- A stream of two notes on track 0: key 60 from tick 0 to 200, key 62 from tick 400 to
600. -/
def twoNoteStream : List MFEvent :=
  [{ time := 0, track := 0, data := [0x90, 60, 100] },
   { time := 200, track := 0, data := [0x80, 60, 0] },
   { time := 400, track := 0, data := [0x90, 62, 100] },
   { time := 600, track := 0, data := [0x80, 62, 0] }]

/-- The note-off for key 60 on channel 1, 1560 ticks after `noteOnEvent`. -/
def longOffEvent : MFEvent :=
  { time := 1560, track := 0, data := [0x80, 60, 0] }

/-- The note-off for key 60 on channel 1, 780 ticks after `noteOnEvent`. -/
def halfwayOffEvent : MFEvent :=
  { time := 780, track := 0, data := [0x80, 60, 0] }

/-- A histogram whose weights on the keys 60 to 63 are the doubles nearest to 0.3, 0.2,
0.1 and 0.3. -/
def tieWeights : Nat → ℚ :=
  fun k =>
    if k = 60 then roundDouble (3 / 10)
    else if k = 61 then roundDouble (2 / 10)
    else if k = 62 then roundDouble (1 / 10)
    else if k = 63 then roundDouble (3 / 10)
    else 0

/-! # Theorems -/

/-! ## Conflict resolution: the grace window (C1) and the re-strike branch (C5) -/

theorem timeOrdered_of_map_eq {a b : List Note}
    (h : a.map Note.time = b.map Note.time) (hb : TimeOrdered b) : TimeOrdered a := by
  have hb2 : (b.map Note.time).Pairwise (· ≤ ·) := List.pairwise_map.mpr hb
  rw [← h] at hb2
  exact List.pairwise_map.mp hb2

theorem scanConflicts_fst_time (keys : KeyTable) (p : Nat) (note : Note) (e : Int)
    (rest : List Note) : (scanConflicts keys p note e rest).1.time = note.time := by
  induction rest with
  | nil => simp [scanConflicts]
  | cons m rest ih =>
    simp only [scanConflicts]
    split_ifs <;> simp [ih]

theorem scanConflicts_fst_key (keys : KeyTable) (p : Nat) (note : Note) (e : Int)
    (rest : List Note) : (scanConflicts keys p note e rest).1.key = note.key := by
  induction rest with
  | nil => simp [scanConflicts]
  | cons m rest ih =>
    simp only [scanConflicts]
    split_ifs <;> simp [ih]

theorem scanConflicts_map_time (keys : KeyTable) (p : Nat) (note : Note) (e : Int)
    (rest : List Note) :
    (scanConflicts keys p note e rest).2.map Note.time = rest.map Note.time := by
  induction rest with
  | nil => simp [scanConflicts]
  | cons m rest ih =>
    simp only [scanConflicts]
    split_ifs <;> simp [ih]

theorem scanConflicts_length (keys : KeyTable) (p : Nat) (note : Note) (e : Int)
    (rest : List Note) : (scanConflicts keys p note e rest).2.length = rest.length := by
  have h := congrArg List.length (scanConflicts_map_time keys p note e rest)
  simpa using h

/-- A scan for a note on pipe `q` leaves the cancelled notes of another pipe `p`
cancelled. -/
theorem scanConflicts_silent_other (keys : KeyTable) (p q : Nat) (T : Int) (note : Note)
    (e : Int) (rest : List Note) (hpq : q ≠ p) (h : SilentBefore keys p T rest) :
    SilentBefore keys p T (scanConflicts keys q note e rest).2 := by
  induction rest with
  | nil => simpa [scanConflicts] using h
  | cons m rest ih =>
    have hm : keys m.key = some p → m.time < T → m.duration ≤ 0 := h m (by simp)
    have hrest : SilentBefore keys p T rest := fun n hn => h n (by simp [hn])
    simp only [scanConflicts]
    split_ifs with h1 h2 h3 h4
    · exact h
    · intro n hn hk ht
      simp only [List.mem_cons] at hn
      rcases hn with rfl | hn
      · simp only at hk
        rw [h2] at hk
        exact absurd (Option.some.inj hk) hpq
      · exact hrest n hn hk ht
    · intro n hn hk ht
      simp only [List.mem_cons] at hn
      rcases hn with rfl | hn
      · exact hm hk ht
      · exact hrest n hn hk ht
    · intro n hn hk ht
      simp only [List.mem_cons] at hn
      rcases hn with rfl | hn
      · simp
      · exact ih hrest n hn hk ht
    · intro n hn hk ht
      simp only [List.mem_cons] at hn
      rcases hn with rfl | hn
      · exact hm hk ht
      · exact ih hrest n hn hk ht

/-- A note whose window closes within 10 ms of its start cannot be re-struck: the scan
leaves it as it is and only cancels followers. -/
theorem scanConflicts_short (keys : KeyTable) (p q : Nat) (T : Int) (note : Note)
    (e : Int) (rest : List Note) (he : e ≤ note.time + 10)
    (h : SilentBefore keys p T rest) :
    (scanConflicts keys q note e rest).1 = note ∧
      SilentBefore keys p T (scanConflicts keys q note e rest).2 := by
  induction rest with
  | nil => simpa [scanConflicts] using h
  | cons m rest ih =>
    have hm : keys m.key = some p → m.time < T → m.duration ≤ 0 := h m (by simp)
    have hrest : SilentBefore keys p T rest := fun n hn => h n (by simp [hn])
    obtain ⟨ih1, ih2⟩ := ih hrest
    simp only [scanConflicts]
    split_ifs with h1 h2 h3 h4
    · exact ⟨rfl, h⟩
    · exfalso
      have := h3.1
      omega
    · exfalso
      have := h3.1
      omega
    · refine ⟨ih1, ?_⟩
      intro n hn hk ht
      simp only [List.mem_cons] at hn
      rcases hn with rfl | hn
      · simp
      · exact ih2 n hn hk ht
    · refine ⟨ih1, ?_⟩
      intro n hn hk ht
      simp only [List.mem_cons] at hn
      rcases hn with rfl | hn
      · exact hm hk ht
      · exact ih2 n hn hk ht

/-- After the scan for `note`, every follower on the same pipe that starts more than
10 ms before the (possibly shortened) end of `note` is cancelled. -/
theorem scanConflicts_silent (keys : KeyTable) (p : Nat) (note : Note) (e : Int)
    (rest : List Note) (he : e = note.time + note.duration)
    (hs : TimeOrdered rest) :
    SilentBefore keys p
      ((scanConflicts keys p note e rest).1.time
        + (scanConflicts keys p note e rest).1.duration - 10)
      (scanConflicts keys p note e rest).2 := by
  induction rest with
  | nil => intro n hn; simp [scanConflicts] at hn
  | cons m rest ih =>
    have hs' : TimeOrdered rest := (List.pairwise_cons.mp hs).2
    have hle : ∀ b ∈ rest, m.time ≤ b.time := (List.pairwise_cons.mp hs).1
    have ih' := ih hs'
    simp only [scanConflicts]
    split_ifs with h1 h2 h3 h4
    · intro n hn hk ht
      simp only [List.mem_cons] at hn
      simp only at ht
      rcases hn with rfl | hn
      · omega
      · have := hle n hn
        omega
    · intro n hn hk ht
      simp only [List.mem_cons] at hn
      simp only at ht
      rcases hn with rfl | hn
      · simp only at ht
        omega
      · have := hle n hn
        omega
    · intro n hn hk ht
      simp only [List.mem_cons] at hn
      simp only at ht
      rcases hn with rfl | hn
      · omega
      · have := hle n hn
        omega
    · intro n hn hk ht
      simp only [List.mem_cons] at hn
      rcases hn with rfl | hn
      · simp
      · exact ih' n hn hk ht
    · intro n hn hk ht
      simp only [List.mem_cons] at hn
      rcases hn with rfl | hn
      · exact absurd hk h2
      · exact ih' n hn hk ht

/-- The later iterations of the outer loop never revive a cancelled note that starts
before `T`: on a time-ordered list, `SilentBefore` survives the rest of the pass. -/
theorem resolveFrom_silent (keys : KeyTable) (p : Nat) (T : Int) :
    ∀ (todo : Nat) (notes : List Note), TimeOrdered notes →
      SilentBefore keys p T notes → SilentBefore keys p T (resolveFrom keys todo notes) := by
  intro todo
  induction todo with
  | zero => intro notes _ h; simpa [resolveFrom] using h
  | succ k ih =>
    intro notes hs h
    cases notes with
    | nil => simpa [resolveFrom] using h
    | cons note rest =>
      have hs' : TimeOrdered rest := (List.pairwise_cons.mp hs).2
      have hle : ∀ b ∈ rest, note.time ≤ b.time := (List.pairwise_cons.mp hs).1
      have hn : keys note.key = some p → note.time < T → note.duration ≤ 0 := h note (by simp)
      have hrest : SilentBefore keys p T rest := fun n hn => h n (by simp [hn])
      simp only [resolveFrom]
      cases hq : keys note.key with
      | none =>
        simp only
        intro n hmem hk ht
        simp only [List.mem_cons] at hmem
        rcases hmem with rfl | hmem
        · exact hn hk ht
        · exact ih rest hs' hrest n hmem hk ht
      | some q =>
        simp only
        have hsr : TimeOrdered (scanConflicts keys q note (note.time + note.duration) rest).2 :=
          timeOrdered_of_map_eq (scanConflicts_map_time _ _ _ _ _) hs'
        by_cases hqp : q = p
        · subst hqp
          by_cases hT : note.time < T
          · have hd : note.duration ≤ 0 := hn hq hT
            obtain ⟨e1, e2⟩ := scanConflicts_short keys q q T note
              (note.time + note.duration) rest (by omega) hrest
            intro n hmem hk ht
            simp only [List.mem_cons] at hmem
            rcases hmem with rfl | hmem
            · rw [e1]; exact hd
            · exact ih _ hsr e2 n hmem hk ht
          · have hvac : SilentBefore keys q T
                (scanConflicts keys q note (note.time + note.duration) rest).2 := by
              intro n hmem _ ht
              have h1 : n.time ∈ (scanConflicts keys q note
                  (note.time + note.duration) rest).2.map Note.time :=
                List.mem_map_of_mem _ hmem
              rw [scanConflicts_map_time] at h1
              obtain ⟨b, hb, hbt⟩ := List.mem_map.mp h1
              have := hle b hb
              omega
            intro n hmem hk ht
            simp only [List.mem_cons] at hmem
            rcases hmem with rfl | hmem
            · rw [scanConflicts_fst_time] at ht
              exact absurd ht hT
            · exact ih _ hsr hvac n hmem hk ht
        · have e2 := scanConflicts_silent_other keys p q T note
            (note.time + note.duration) rest hqp hrest
          intro n hmem hk ht
          simp only [List.mem_cons] at hmem
          rcases hmem with rfl | hmem
          · rw [scanConflicts_fst_key, hq] at hk
            exact absurd (Option.some.inj hk) hqp
          · exact ih _ hsr e2 n hmem hk ht

theorem resolveFrom_graceApart (keys : KeyTable) :
    ∀ (todo : Nat) (notes : List Note), notes.length ≤ todo → TimeOrdered notes →
      (resolveFrom keys todo notes).Pairwise (GraceApart keys) := by
  intro todo
  induction todo with
  | zero =>
    intro notes hl _
    have : notes = [] := List.length_eq_zero.mp (Nat.le_zero.mp hl)
    subst this
    simp [resolveFrom]
  | succ k ih =>
    intro notes hl hs
    cases notes with
    | nil => simp [resolveFrom]
    | cons note rest =>
      have hs' : TimeOrdered rest := (List.pairwise_cons.mp hs).2
      have hl' : rest.length ≤ k := by simpa using hl
      simp only [resolveFrom]
      cases hq : keys note.key with
      | none =>
        simp only
        refine List.pairwise_cons.mpr ⟨?_, ih rest hl' hs'⟩
        intro b _ p hp
        rw [hq] at hp
        exact absurd hp (by simp)
      | some q =>
        simp only
        have hsr : TimeOrdered (scanConflicts keys q note (note.time + note.duration) rest).2 :=
          timeOrdered_of_map_eq (scanConflicts_map_time _ _ _ _ _) hs'
        have hlr : (scanConflicts keys q note (note.time + note.duration) rest).2.length ≤ k := by
          rw [scanConflicts_length]; exact hl'
        refine List.pairwise_cons.mpr ⟨?_, ih _ hlr hsr⟩
        have hsil := resolveFrom_silent keys q _ k _ hsr
          (scanConflicts_silent keys q note (note.time + note.duration) rest rfl hs')
        intro b hb p hp hbp _ hbd
        rw [scanConflicts_fst_key, hq] at hp
        have hpq : q = p := Option.some.inj hp
        subst hpq
        by_contra hcon
        have := hsil b hb hbp (by omega)
        omega

/-- C1.  For every key table and every note list in non-decreasing start-time order
with non-negative durations, any two notes of the resolved list, `n` before `m`, that
sound on the same pipe and both keep a positive duration satisfy
`n.time + n.duration ≤ m.time + 10`. -/
theorem resolveConflicts_grace_window (keys : KeyTable) (notes : List Note)
    (hsorted : notes.Pairwise (fun a b => a.time ≤ b.time))
    (_hdur : ∀ n ∈ notes, 0 ≤ n.duration) :
    (resolveConflicts keys notes).Pairwise (fun n m =>
      ∀ p, keys n.key = some p → keys m.key = some p →
        0 < n.duration → 0 < m.duration → n.time + n.duration ≤ m.time + 10) :=
  resolveFrom_graceApart keys notes.length notes (le_refl _) hsorted

/-- C1 at the list `[quietNote, loudNote]` on one pipe. -/
theorem resolveConflicts_grace_window_witness :
    [quietNote, loudNote].Pairwise (fun a b => a.time ≤ b.time)
      ∧ (∀ n ∈ [quietNote, loudNote], 0 ≤ n.duration)
      ∧ (resolveConflicts oneKey [quietNote, loudNote]).Pairwise (fun n m =>
          ∀ p, oneKey n.key = some p → oneKey m.key = some p →
            0 < n.duration → 0 < m.duration → n.time + n.duration ≤ m.time + 10) :=
  ⟨by decide, by decide,
    resolveConflicts_grace_window oneKey [quietNote, loudNote] (by decide) (by decide)⟩

/-- C5, as stated, fails: `loudNote` is louder than `quietNote`, starts 100 ms after it
and before its end on the same pipe; the pass shortens `quietNote` to 90 ms but leaves
`loudNote` as it is, although `loudNote` ends (at 190) before the original end of
`quietNote` (at 200). -/
theorem restrike_not_extended_within_20ms :
    (oneKey quietNote.key = some 0 ∧ oneKey loudNote.key = some 0
        ∧ loudNote.velocity > quietNote.velocity
        ∧ loudNote.time > quietNote.time + 20
        ∧ loudNote.time < quietNote.time + quietNote.duration)
      ∧ resolveConflicts oneKey [quietNote, loudNote]
          = [{ quietNote with duration := 90 }, loudNote]
      ∧ loudNote.time + loudNote.duration < quietNote.time + quietNote.duration := by
  decide!

/-- C5, amended.  For two notes `n`, `m` on the same pipe with `m` louder, starting more
than 20 ms after `n` and before the end of `n`, the pass sets
`n.duration = m.time - n.time - 10`; `m` is extended to end exactly at the original end
of `n` when `m` would end more than 20 ms before it, and is left as it is otherwise.  In
both cases the resolved `m` ends no earlier than 20 ms before the original end of `n`. -/
theorem restrike_shortens_first (keys : KeyTable) (p : Nat) (n m : Note)
    (hn : keys n.key = some p) (hm : keys m.key = some p)
    (hv : m.velocity > n.velocity) (hstart : m.time > n.time + 20)
    (hbefore : m.time < n.time + n.duration) :
    resolveConflicts keys [n, m]
        = [{ n with duration := m.time - n.time - 10 },
           if m.time + m.duration + 20 < n.time + n.duration then
             { m with duration := n.time + n.duration - m.time }
           else m]
      ∧ n.time + n.duration
          ≤ m.time
            + (if m.time + m.duration + 20 < n.time + n.duration then
                n.time + n.duration - m.time
              else m.duration)
            + 20 := by
  have hwin : ¬ (m.time ≥ n.time + n.duration + 10) := by omega
  constructor
  · simp only [resolveConflicts, resolveFrom, scanConflicts, List.length_cons,
      List.length_nil, hn, hm]
    simp only [hwin, if_false, hstart, hv, and_self, if_true]
    split_ifs <;> simp [resolveFrom, hm, scanConflicts]
  · split_ifs <;> omega

/-- The amended C5 at `quietNote` followed by `briefLoudNote`, which would end 50 ms
before `quietNote` does. -/
theorem restrike_shortens_first_witness :
    (oneKey quietNote.key = some 0 ∧ oneKey briefLoudNote.key = some 0
        ∧ briefLoudNote.velocity > quietNote.velocity
        ∧ briefLoudNote.time > quietNote.time + 20
        ∧ briefLoudNote.time < quietNote.time + quietNote.duration)
      ∧ resolveConflicts oneKey [quietNote, briefLoudNote]
        = [{ quietNote with duration := briefLoudNote.time - quietNote.time - 10 },
           if briefLoudNote.time + briefLoudNote.duration + 20
                < quietNote.time + quietNote.duration then
             { briefLoudNote with
               duration := quietNote.time + quietNote.duration - briefLoudNote.time }
           else briefLoudNote] :=
  ⟨by decide!,
    (restrike_shortens_first oneKey 0 quietNote briefLoudNote
      (by decide) (by decide) (by decide!) (by decide) (by decide)).1⟩

/-! ## Playback: exclusive use of a pipe (C2) and the monotone `busyUntil` (C10) -/

/-- After lines 308-321 the clock has reached the `busyUntil` of the pipe. -/
theorem waitForPipe_reaches (jit : Jitter) (startTime busyUntil : Int) (note : Note)
    (c : Clock) : busyUntil ≤ (waitForPipe jit startTime busyUntil note c).now := by
  simp only [waitForPipe, getTickCount, sleep]
  split_ifs <;> simp only <;> omega

/-- Lines 324-330: the clock does not go back, the delay is not negative, and the pulse
fires at the (possibly resynchronised) `startTime + note.time`. -/
theorem computeWait_spec (jit : Jitter) (startTime : Int) (note : Note) (c : Clock) :
    c.now ≤ (computeWait jit startTime note c).2.2.now
      ∧ 0 ≤ (computeWait jit startTime note c).2.1
      ∧ (computeWait jit startTime note c).2.2.now + (computeWait jit startTime note c).2.1
          = (computeWait jit startTime note c).1 + note.time := by
  simp only [computeWait, getTickCount]
  split_ifs <;> simp only <;> omega

theorem playNote_cancelled (jit : Jitter) (keys : KeyTable) (mute : Bool) (s : Player)
    (note : Note) (hd : note.duration ≤ 0) : playNote jit keys mute s note = s := by
  simp [playNote, hd]

theorem playNote_missing (jit : Jitter) (keys : KeyTable) (mute : Bool) (s : Player)
    (note : Note) (hk : keys note.key = none) : playNote jit keys mute s note = s := by
  simp [playNote, hk]

theorem playNote_sounding (jit : Jitter) (keys : KeyTable) (mute : Bool) (s : Player)
    (note : Note) (pipe : Nat) (hd : 0 < note.duration) (hk : keys note.key = some pipe) :
    playNote jit keys mute s note =
      { startTime := (computeWait jit s.startTime note
          (waitForPipe jit s.startTime (s.busyUntil pipe) note s.clock)).1
        busyUntil := Function.update s.busyUntil pipe
          ((computeWait jit s.startTime note
            (waitForPipe jit s.startTime (s.busyUntil pipe) note s.clock)).1
            + note.time + note.duration)
        clock := (computeWait jit s.startTime note
          (waitForPipe jit s.startTime (s.busyUntil pipe) note s.clock)).2.2
        pulses :=
          if mute then s.pulses
          else s.pulses ++ [{ pipe := pipe
                              delay := (computeWait jit s.startTime note
                                (waitForPipe jit s.startTime (s.busyUntil pipe) note s.clock)).2.1
                              duration := note.duration
                              issuedAt := (computeWait jit s.startTime note
                                (waitForPipe jit s.startTime (s.busyUntil pipe) note
                                  s.clock)).2.2.now }] } := by
  have hd2 : ¬ note.duration ≤ 0 := by omega
  simp only [playNote, hd2, hk, hd, if_true, if_false]

theorem playNote_busyUntil_le (jit : Jitter) (keys : KeyTable) (mute : Bool) (s : Player)
    (note : Note) (q : Nat) :
    s.busyUntil q ≤ (playNote jit keys mute s note).busyUntil q := by
  by_cases hd : note.duration ≤ 0
  · rw [playNote_cancelled jit keys mute s note hd]
  · cases hk : keys note.key with
    | none => rw [playNote_missing jit keys mute s note hk]
    | some pipe =>
      rw [playNote_sounding jit keys mute s note pipe (by omega) hk]
      simp only
      by_cases hq : q = pipe
      · subst hq
        rw [Function.update_same]
        have h1 := waitForPipe_reaches jit s.startTime (s.busyUntil q) note s.clock
        have h2 := computeWait_spec jit s.startTime note
          (waitForPipe jit s.startTime (s.busyUntil q) note s.clock)
        omega
      · rw [Function.update_noteq hq]

theorem playNote_busyUntil_other (jit : Jitter) (keys : KeyTable) (mute : Bool) (s : Player)
    (note : Note) (q : Nat) (hq : keys note.key ≠ some q) :
    (playNote jit keys mute s note).busyUntil q = s.busyUntil q := by
  by_cases hd : note.duration ≤ 0
  · rw [playNote_cancelled jit keys mute s note hd]
  · cases hk : keys note.key with
    | none => rw [playNote_missing jit keys mute s note hk]
    | some pipe =>
      rw [playNote_sounding jit keys mute s note pipe (by omega) hk]
      simp only
      have hne : q ≠ pipe := by
        intro h
        apply hq
        rw [hk, h]
      rw [Function.update_noteq hne]

theorem playNotes_busyUntil_le (jit : Jitter) (keys : KeyTable) (mute : Bool) (q : Nat) :
    ∀ (notes : List Note) (s : Player),
      s.busyUntil q ≤ (notes.foldl (playNote jit keys mute) s).busyUntil q := by
  intro notes
  induction notes with
  | nil => intro s; exact le_refl _
  | cons note rest ih =>
    intro s
    simp only [List.foldl_cons]
    exact le_trans (playNote_busyUntil_le jit keys mute s note q) (ih _)

theorem playNote_ok (jit : Jitter) (keys : KeyTable) (mute : Bool) (s : Player)
    (note : Note) (h : PlayerOk s) : PlayerOk (playNote jit keys mute s note) := by
  have hmono := playNote_busyUntil_le jit keys mute s note
  by_cases hd : note.duration ≤ 0
  · rw [playNote_cancelled jit keys mute s note hd]; exact h
  · cases hk : keys note.key with
    | none => rw [playNote_missing jit keys mute s note hk]; exact h
    | some pipe =>
      rw [playNote_sounding jit keys mute s note pipe (by omega) hk] at hmono ⊢
      simp only at hmono
      have h1 := waitForPipe_reaches jit s.startTime (s.busyUntil pipe) note s.clock
      obtain ⟨h2, h3, h4⟩ := computeWait_spec jit s.startTime note
        (waitForPipe jit s.startTime (s.busyUntil pipe) note s.clock)
      cases mute with
      | true =>
        refine ⟨h.1, ?_⟩
        intro c hc
        exact le_trans (h.2 c hc) (hmono c.pipe)
      | false =>
        simp only [Bool.false_eq_true, if_false]
        refine ⟨?_, ?_⟩
        · refine List.pairwise_append.mpr ⟨h.1, List.pairwise_singleton _ _, ?_⟩
          intro c hc c2 hc2
          simp only [List.mem_singleton] at hc2
          subst hc2
          intro hp
          simp only at hp ⊢
          have := h.2 c hc
          rw [hp] at this
          omega
        · intro c hc
          simp only [List.mem_append, List.mem_singleton] at hc
          rcases hc with hc | rfl
          · exact le_trans (h.2 c hc) (hmono c.pipe)
          · simp only [Function.update_same]
            omega

theorem playNotes_ok (jit : Jitter) (keys : KeyTable) (mute : Bool) :
    ∀ (notes : List Note) (s : Player), PlayerOk s →
      PlayerOk (notes.foldl (playNote jit keys mute) s) := by
  intro notes
  induction notes with
  | nil => intro s h; exact h
  | cons note rest ih =>
    intro s h
    simp only [List.foldl_cons]
    exact ih _ (playNote_ok jit keys mute s note h)

/-- C2.  For every clock behaviour, key table and non-empty note list, the playback
loop runs to its end, and any two pulse commands it issued to the same pipe, `c1`
before `c2`, satisfy: the fire time of `c2` (clock at issue plus delay) is at least the
fire time of `c1` plus the duration `c1` sustains.  The clock at issue is the clock as
the program last read it: line 324, or line 328 after a resynchronisation. -/
theorem playback_exclusive (jit : Jitter) (keys : KeyTable) (mute : Bool)
    (first : Note) (rest : List Note) :
    ∃ s, playback jit keys mute (first :: rest) = some s
      ∧ s.pulses.Pairwise (fun c1 c2 =>
          c1.pipe = c2.pipe →
            c2.issuedAt + c2.delay ≥ c1.issuedAt + c1.delay + c1.duration) := by
  refine ⟨_, rfl, ?_⟩
  have h0 : PlayerOk (startPlayer jit first.time) := by
    refine ⟨?_, ?_⟩
    · simp [startPlayer]
    · intro c hc
      simp [startPlayer] at hc
  exact (playNotes_ok jit keys mute (first :: rest) _ h0).1

/-- C10.  For every clock behaviour and every state of the playback loop, one
iteration leaves the `busyUntil` of every pipe at least as large as it was (also when
it resynchronises `startTime`) and changes the `busyUntil` of no pipe other than the
one the note sounds on; hence no `busyUntil` ever decreases over a run. -/
theorem busyUntil_never_decreases (jit : Jitter) (keys : KeyTable) (mute : Bool)
    (s : Player) (note : Note) (q : Nat) :
    s.busyUntil q ≤ (playNote jit keys mute s note).busyUntil q
      ∧ (keys note.key ≠ some q → (playNote jit keys mute s note).busyUntil q = s.busyUntil q)
      ∧ ∀ notes : List Note,
          s.busyUntil q ≤ (notes.foldl (playNote jit keys mute) s).busyUntil q :=
  ⟨playNote_busyUntil_le jit keys mute s note q,
    playNote_busyUntil_other jit keys mute s note q,
    fun notes => playNotes_busyUntil_le jit keys mute q notes s⟩

/-! ## Pipe assignment: the best-match search (C3) and the coverage of the folding
passes (C8) -/

theorem searchUpTo_succ (ops : DoubleOps) (weights : Nat → ℚ) (pipes : List Nat) (n : Nat) :
    searchUpTo ops weights pipes (n + 1)
      = searchStep ops weights pipes (searchUpTo ops weights pipes n) n := by
  simp [searchUpTo, List.range_succ, List.foldl_append]

/-- The loop invariant of the search after the candidates `0 .. n-1`: `baseweight` bounds
every score seen and is not negative; either nothing scored above zero and `basenote`
is still 43, or `basenote` is the first candidate that reaches `baseweight`. -/
theorem searchUpTo_invariant (ops : DoubleOps) (weights : Nat → ℚ) (pipes : List Nat) (n : Nat) :
    (∀ b < n, score ops weights pipes b ≤ (searchUpTo ops weights pipes n).1)
      ∧ (((searchUpTo ops weights pipes n).1 = 0 ∧ (searchUpTo ops weights pipes n).2 = 43)
        ∨ (0 < (searchUpTo ops weights pipes n).1
            ∧ (searchUpTo ops weights pipes n).2 < n
            ∧ score ops weights pipes (searchUpTo ops weights pipes n).2
                = (searchUpTo ops weights pipes n).1
            ∧ ∀ b < (searchUpTo ops weights pipes n).2,
                score ops weights pipes b < (searchUpTo ops weights pipes n).1)) := by
  induction n with
  | zero =>
    refine ⟨fun b hb => absurd hb (Nat.not_lt_zero b), Or.inl ?_⟩
    simp [searchUpTo]
  | succ n ih =>
    obtain ⟨hmax, hcase⟩ := ih
    have hnonneg : 0 ≤ (searchUpTo ops weights pipes n).1 := by
      rcases hcase with h | h
      · exact le_of_eq h.1.symm
      · exact le_of_lt h.1
    rw [searchUpTo_succ]
    unfold searchStep
    split_ifs with hlt
    · refine ⟨?_, Or.inr ⟨lt_of_le_of_lt hnonneg hlt, Nat.lt_succ_self n, rfl, ?_⟩⟩
      · intro b hb
        rcases Nat.lt_succ_iff_lt_or_eq.mp hb with h | h
        · exact le_of_lt (lt_of_le_of_lt (hmax b h) hlt)
        · rw [h]
      · intro b hb
        exact lt_of_le_of_lt (hmax b hb) hlt
    · refine ⟨?_, ?_⟩
      · intro b hb
        rcases Nat.lt_succ_iff_lt_or_eq.mp hb with h | h
        · exact hmax b h
        · rw [h]; exact not_lt.mp hlt
      · rcases hcase with h | h
        · exact Or.inl h
        · exact Or.inr ⟨h.1, Nat.lt_succ_of_lt h.2.1, h.2.2.1, h.2.2.2⟩

/-- C3, as stated, fails: with no pipe every candidate scores 0 (an empty sum, no
rounding involved), so candidate 0 already has the maximal score, yet the search leaves
`basenote` at its initial value 43. -/
theorem bestBasenote_default_when_nothing_scores :
    bestBasenote exactOps (countWeights exactOps [quietNote]) [] = 43
      ∧ (∀ b < 127, score exactOps (countWeights exactOps [quietNote]) [] b
            ≤ score exactOps (countWeights exactOps [quietNote]) [] 0)
      ∧ ¬ (∀ b < bestBasenote exactOps (countWeights exactOps [quietNote]) [],
            score exactOps (countWeights exactOps [quietNote]) [] b
              < score exactOps (countWeights exactOps [quietNote]) []
                  (bestBasenote exactOps (countWeights exactOps [quietNote]) [])) := by
  have hs : ∀ b, score exactOps (countWeights exactOps [quietNote]) [] b = 0 := fun b => rfl
  have hb : bestBasenote exactOps (countWeights exactOps [quietNote]) [] = 43 := by
    have h := searchUpTo_invariant exactOps (countWeights exactOps [quietNote]) [] 127
    rcases h.2 with h1 | h1
    · exact h1.2
    · rw [← h1.2.2.1, hs] at h1
      exact absurd h1.1 (lt_irrefl _)
  refine ⟨hb, ?_, ?_⟩
  · intro b _
    rw [hs, hs]
  · intro h
    have := h 0 (by rw [hb]; decide)
    rw [hs, hs] at this
    exact absurd this (lt_irrefl _)

/-- C3, amended.  For every weight histogram and pipe set, with `score b` the sum that
the inner loop accumulates for candidate `b` (double additions in pipe order, whatever
their rounding; two candidates whose exact sums are equal can get different scores):
if no candidate `b` in `0 .. 126` scores above 0, `basenote` keeps its initial value 43;
otherwise `basenote` is the smallest `b` in `0 .. 126` whose score is maximal (every
candidate scores at most as much, every lower candidate scores strictly less). -/
theorem bestBasenote_spec (ops : DoubleOps) (weights : Nat → ℚ) (pipes : List Nat) :
    ((∀ b < 127, score ops weights pipes b ≤ 0) ∧ bestBasenote ops weights pipes = 43)
      ∨ (0 < score ops weights pipes (bestBasenote ops weights pipes)
          ∧ bestBasenote ops weights pipes < 127
          ∧ (∀ b < 127, score ops weights pipes b
                ≤ score ops weights pipes (bestBasenote ops weights pipes))
          ∧ ∀ b < bestBasenote ops weights pipes,
              score ops weights pipes b < score ops weights pipes (bestBasenote ops weights pipes)) := by
  obtain ⟨hmax, hcase⟩ := searchUpTo_invariant ops weights pipes 127
  unfold bestBasenote
  rcases hcase with h | h
  · left
    refine ⟨?_, h.2⟩
    intro b hb
    have := hmax b hb
    rw [h.1] at this
    exact this
  · right
    obtain ⟨h1, h2, h3, h4⟩ := h
    refine ⟨by rw [h3]; exact h1, h2, ?_, ?_⟩
    · intro b hb
      rw [h3]; exact hmax b hb
    · intro b hb
      rw [h3]; exact h4 b hb

theorem coveredWeight_fold_mono (k1 k2 : KeyTable) (weights : Nat → ℚ)
    (hw : ∀ i, 0 ≤ weights i) (h : ∀ i, (k1 i).isSome = true → (k2 i).isSome = true) :
    ∀ (l : List Nat) (a b : ℚ), a ≤ b →
      l.foldl (fun weight i => if (k1 i).isSome then weight + weights i else weight) a
        ≤ l.foldl (fun weight i => if (k2 i).isSome then weight + weights i else weight) b := by
  intro l
  induction l with
  | nil => intro a b hab; exact hab
  | cons i l ih =>
    intro a b hab
    simp only [List.foldl_cons]
    apply ih
    by_cases h1 : (k1 i).isSome = true
    · rw [if_pos h1, if_pos (h i h1)]
      linarith
    · rw [if_neg h1]
      split_ifs
      · linarith [hw i]
      · exact hab

theorem coveredWeight_mono (k1 k2 : KeyTable) (weights : Nat → ℚ)
    (hw : ∀ i, 0 ≤ weights i) (h : ∀ i, (k1 i).isSome = true → (k2 i).isSome = true) :
    coveredWeight k1 weights ≤ coveredWeight k2 weights :=
  coveredWeight_fold_mono k1 k2 weights hw h (List.range 128) 0 0 (le_refl 0)

theorem foldUpStep_keeps (interval : Nat) (keys : KeyTable) (j i : Nat)
    (h : (keys i).isSome = true) : (foldUpStep interval keys j i).isSome = true := by
  unfold foldUpStep
  split_ifs with hc
  · by_cases hi : i = j + interval
    · rw [hi, Function.update_same]
      exact Option.isSome_iff_ne_none.mpr hc.2
    · rw [Function.update_noteq hi]; exact h
  · exact h

theorem foldDownStep_keeps (keys : KeyTable) (j i : Nat)
    (h : (keys i).isSome = true) : (foldDownStep keys j i).isSome = true := by
  unfold foldDownStep
  split_ifs with hc
  · by_cases hi : i = j - 12
    · rw [hi, Function.update_same]
      exact Option.isSome_iff_ne_none.mpr hc.2
    · rw [Function.update_noteq hi]; exact h
  · exact h

theorem foldl_keeps (step : KeyTable → Nat → KeyTable) (i : Nat)
    (hstep : ∀ keys j, (keys i).isSome = true → (step keys j i).isSome = true) :
    ∀ (l : List Nat) (keys : KeyTable), (keys i).isSome = true →
      (l.foldl step keys i).isSome = true := by
  intro l
  induction l with
  | nil => intro keys h; exact h
  | cons j l ih =>
    intro keys h
    simp only [List.foldl_cons]
    exact ih _ (hstep keys j h)

theorem foldUp_keeps (interval : Nat) (keys : KeyTable) (i : Nat)
    (h : (keys i).isSome = true) : ((foldUp interval keys).1 i).isSome = true :=
  foldl_keeps (foldUpStep interval) i (fun k j hk => foldUpStep_keeps interval k j i hk) _ keys h

theorem foldOctaves_keeps (keys : KeyTable) (i : Nat)
    (h : (keys i).isSome = true) : (foldOctaves keys i).isSome = true :=
  foldl_keeps foldDownStep i (fun k j hk => foldDownStep_keeps k j i hk) _ _
    (foldUp_keeps 12 keys i h)

/-- C8.  For every non-negative weight histogram, every pipe set and every base note,
the covered weight that `showQuality` sums does not decrease from stage to stage:
direct assignment, octave folding, fifth folding, third folding. -/
theorem coverage_monotone (weights : Nat → ℚ) (hw : ∀ k, 0 ≤ weights k)
    (pipes : List Nat) (basenote : Nat) :
    coveredWeight (assignPipes basenote pipes (fun _ => none)) weights
        ≤ coveredWeight (foldOctaves (assignPipes basenote pipes (fun _ => none))) weights
      ∧ coveredWeight (foldOctaves (assignPipes basenote pipes (fun _ => none))) weights
        ≤ coveredWeight
            (foldFifths (foldOctaves (assignPipes basenote pipes (fun _ => none)))) weights
      ∧ coveredWeight
            (foldFifths (foldOctaves (assignPipes basenote pipes (fun _ => none)))) weights
        ≤ coveredWeight
            (foldThirds
              (foldFifths (foldOctaves (assignPipes basenote pipes (fun _ => none))))).1
            weights :=
  ⟨coveredWeight_mono _ _ weights hw (fun i h => foldOctaves_keeps _ i h),
    coveredWeight_mono _ _ weights hw (fun i h => foldUp_keeps 7 _ i h),
    coveredWeight_mono _ _ weights hw (fun i h => foldUp_keeps 16 _ i h)⟩

/-- C8 at the histogram `oneKeyWeights`, two pipes (offsets 0 and 2) and base note 60. -/
theorem coverage_monotone_witness :
    (∀ k, 0 ≤ oneKeyWeights k)
      ∧ coveredWeight (assignPipes 60 [0, 2] (fun _ => none)) oneKeyWeights
          ≤ coveredWeight (foldOctaves (assignPipes 60 [0, 2] (fun _ => none))) oneKeyWeights :=
  ⟨fun k => by unfold oneKeyWeights; split_ifs <;> norm_num,
    (coverage_monotone oneKeyWeights
      (fun k => by unfold oneKeyWeights; split_ifs <;> norm_num) [0, 2] 60).1⟩

/-! ## Dynamics (C4) -/

/-- C4, evaluated where the code departs from it.  On the 113-note piece `loudestFirst`
the pass is entered with `i = 112` (left by the loop of lines 246-250), so `maxVelocity`
is seeded by note 112 and note 0 is never compared: `maxVelocity` becomes 1/2 although
note 0 has velocity 1, and the duration of note 0 grows from 100 to 200. -/
theorem applyDynamics_lengthens_loudest_first :
    (foldThirds (fun _ => none)).2 = 112
      ∧ applyDynamics exactOps (foldThirds (fun _ => none)).2 loudestFirst
          = some ({ channel := 1, time := 0, key := 60, duration := 200, velocity := 1 }
              :: List.replicate 112
                  { channel := 1, time := 10, key := 62, duration := 100, velocity := 1 / 2 }) := by
  decide!

/-! ## Extraction: the duration of a note (C6) and the order of the notes (C7) -/

theorem scanNoteOff_cases (ops : DoubleOps)
    (lib : MidiLib) (iEvent : MFEvent) (timebase : ℚ) (note : Note)
    (notes : List Note) (later : List MFEvent) :
    scanNoteOff ops lib iEvent timebase note notes later = notes
      ∨ ∃ d, scanNoteOff ops lib iEvent timebase note notes later
          = notes ++ [{ note with duration := d }] := by
  induction later with
  | nil => left; rfl
  | cons j later ih =>
    simp only [scanNoteOff]
    split_ifs
    · exact ih
    · right; exact ⟨_, rfl⟩
    · left; rfl
    · exact ih

theorem timeOrdered_append_singleton (notes : List Note) (n : Note)
    (h : TimeOrdered notes) (hle : ∀ a ∈ notes, a.time ≤ n.time) :
    TimeOrdered (notes ++ [n]) := by
  refine List.pairwise_append.mpr ⟨h, List.pairwise_singleton _ _, ?_⟩
  intro a ha b hb
  simp only [List.mem_singleton] at hb
  subst hb
  exact hle a ha

theorem dispatchEvent_ok (ops : DoubleOps)
    (lib : MidiLib) (tpq : Nat) (later : List MFEvent) (x : Extractor)
    (e : MFEvent) (h : ExtractorOk x) :
    ExtractorOk (dispatchEvent ops lib tpq later x e)
      ∧ (dispatchEvent ops lib tpq later x e).currtime = x.currtime
      ∧ (dispatchEvent ops lib tpq later x e).oldticks = x.oldticks := by
  obtain ⟨h1, h2, h3⟩ := h
  unfold dispatchEvent
  simp only
  split_ifs
  · exact ⟨⟨h1, h2, h3⟩, rfl, rfl⟩
  · exact ⟨⟨h1, h2, h3⟩, rfl, rfl⟩
  · exact ⟨⟨h1, h2, h3⟩, rfl, rfl⟩
  · exact ⟨⟨h1, h2, h3⟩, rfl, rfl⟩
  · exact ⟨⟨h1, h2, h3⟩, rfl, rfl⟩
  · exact ⟨⟨h1, h2, h3⟩, rfl, rfl⟩
  · refine ⟨⟨?_, h2, h3⟩, rfl, rfl⟩
    simp only
    exact ops.div_nonneg _ _
      (ops.div_nonneg _ _ (by norm_num) (ops.div_nonneg _ _ (by norm_num) (Nat.cast_nonneg _)))
      (Nat.cast_nonneg _)
  · refine ⟨⟨h1, ?_, ?_⟩, rfl, rfl⟩
    · simp only
      rcases scanNoteOff_cases ops lib e x.timebase _ x.notes later with hc | ⟨d, hc⟩
      · rw [hc]; exact h2
      · rw [hc]
        exact timeOrdered_append_singleton _ _ h2 (fun a ha => h3 a ha)
    · simp only
      rcases scanNoteOff_cases ops lib e x.timebase _ x.notes later with hc | ⟨d, hc⟩
      · rw [hc]; exact h3
      · rw [hc]
        intro n hn
        simp only [List.mem_append, List.mem_singleton] at hn
        rcases hn with hn | rfl
        · exact h3 n hn
        · exact le_refl _
  · exact ⟨⟨h1, h2, h3⟩, rfl, rfl⟩

theorem roundHalfUp_nonneg (ops : DoubleOps) (x : ℚ) (hx : 0 ≤ x) : 0 ≤ roundHalfUp ops x := by
  unfold roundHalfUp
  exact Int.floor_nonneg.mpr (ops.add_nonneg _ _ hx (by norm_num))

theorem processEvent_ok (ops : DoubleOps)
    (lib : MidiLib) (tpq : Nat) (later : List MFEvent) (x : Extractor)
    (e : MFEvent) (h : ExtractorOk x) (ht : x.oldticks ≤ e.time) :
    ExtractorOk (processEvent ops lib tpq later x e)
      ∧ (processEvent ops lib tpq later x e).oldticks = e.time := by
  obtain ⟨⟨h1, h2, h3⟩, hc, ho⟩ := dispatchEvent_ok ops lib tpq later x e h
  refine ⟨⟨h1, h2, ?_⟩, rfl⟩
  intro n hn
  have hr : 0 ≤ roundHalfUp ops (ops.mul (((e.time : Int)
      - ((dispatchEvent ops lib tpq later x e).oldticks : Int) : Int) : ℚ)
      (dispatchEvent ops lib tpq later x e).timebase) := by
    apply roundHalfUp_nonneg
    apply ops.mul_nonneg _ _ _ h1
    rw [ho]
    have : (0 : Int) ≤ (e.time : Int) - (x.oldticks : Int) := by omega
    exact_mod_cast this
  exact le_trans (h3 n hn) (le_add_of_nonneg_right hr)

theorem extractFrom_ok (ops : DoubleOps) (lib : MidiLib) (tpq : Nat) :
    ∀ (events : List MFEvent) (x : Extractor), ExtractorOk x →
      events.Pairwise (fun a b => a.time ≤ b.time) →
      (∀ e ∈ events, x.oldticks ≤ e.time) →
      ExtractorOk (extractFrom ops lib tpq x events) := by
  intro events
  induction events with
  | nil => intro x h _ _; exact h
  | cons e later ih =>
    intro x h hs ht
    simp only [extractFrom]
    obtain ⟨hok, hold⟩ := processEvent_ok ops lib tpq later x e h (ht e (by simp))
    apply ih _ hok (List.pairwise_cons.mp hs).2
    intro e2 he2
    rw [hold]
    exact (List.pairwise_cons.mp hs).1 e2 he2

/-- C7.  For every event list whose ticks do not decrease, with a positive start tempo
and a positive number of ticks per quarter note (so that the tick-to-ms factor starts
positive), and whatever the rounding of the double arithmetic, the extracted notes are
in non-decreasing start-time order. -/
theorem extractNotes_time_ordered (ops : DoubleOps) (lib : MidiLib) (tempo : ℚ) (volume : Nat → Int)
    (tpq : Nat) (events : List MFEvent)
    (hticks : events.Pairwise (fun a b => a.time ≤ b.time))
    (htempo : 0 < tempo) (_htpq : 0 < tpq) :
    (extractNotes ops lib tempo volume tpq events).Pairwise (fun a b => a.time ≤ b.time) := by
  have h0 : ExtractorOk (initExtractor ops tempo volume tpq) := by
    refine ⟨?_, ?_, ?_⟩
    · simp only [initExtractor]
      exact ops.div_nonneg _ _ (ops.div_nonneg _ _ (by norm_num) (le_of_lt htempo))
        (Nat.cast_nonneg _)
    · simp [initExtractor, TimeOrdered]
    · intro n hn
      simp [initExtractor] at hn
  exact (extractFrom_ok ops lib tpq events _ h0 hticks
    (fun e _ => by simp [initExtractor])).2.1

/-- C7 at `twoNoteStream`, which yields two notes, starting at 0 ms and at 100 ms. -/
theorem extractNotes_time_ordered_witness :
    twoNoteStream.Pairwise (fun a b => a.time ≤ b.time)
      ∧ (0 : ℚ) < 120 ∧ 0 < 1000
      ∧ (extractNotes exactOps statusByteLib 120 defaultVolume 1000 twoNoteStream).map
          (fun n => (n.key, n.time)) = [(60, 0), (62, 100)]
      ∧ (extractNotes exactOps statusByteLib 120 defaultVolume 1000
          twoNoteStream).Pairwise (fun a b => a.time ≤ b.time) :=
  ⟨by decide, by norm_num, by decide, by decide!,
    extractNotes_time_ordered exactOps statusByteLib 120 defaultVolume 1000
      twoNoteStream (by decide) (by norm_num) (by decide)⟩

/-- C6, as stated, fails.  At tempo 120 with 1000 ticks per beat the factor is 1/2 ms
per tick; for a note-off 3 ticks after its note-on the formula of the claim, rounded
half up like the clock of line 188, gives 2 ms, but the extracted note lasts 1 ms: line
180 truncates. -/
theorem extracted_duration_is_truncated :
    extractNotes exactOps statusByteLib 120 defaultVolume 1000 [noteOnEvent, noteOffEvent]
        = [{ channel := 1, time := 0, key := 60, duration := 1, velocity := 100 * 10 / 1270 }]
      ∧ roundHalfUp exactOps (3 * 60000 / (120 * 1000)) = 2 := by
  decide!

theorem dispatchEvent_last_notes (ops : DoubleOps) (lib : MidiLib) (tpq : Nat) (x : Extractor)
    (e : MFEvent) : (dispatchEvent ops lib tpq [] x e).notes = x.notes := by
  unfold dispatchEvent
  simp only
  split_ifs <;> rfl

/-- The branch chain writes neither `currtime` nor `oldticks`, and writes `timebase`
only for a tempo event. -/
theorem dispatchEvent_frame (ops : DoubleOps) (lib : MidiLib) (tpq : Nat)
    (later : List MFEvent) (x : Extractor) (e : MFEvent) :
    (dispatchEvent ops lib tpq later x e).currtime = x.currtime
      ∧ (dispatchEvent ops lib tpq later x e).oldticks = x.oldticks
      ∧ (lib.isTempo e = false →
          (dispatchEvent ops lib tpq later x e).timebase = x.timebase) := by
  unfold dispatchEvent
  simp only
  split_ifs with h1 h2 h3 h4 h5 h6 h7 h8
  · exact ⟨rfl, rfl, fun _ => rfl⟩
  · exact ⟨rfl, rfl, fun _ => rfl⟩
  · exact ⟨rfl, rfl, fun _ => rfl⟩
  · exact ⟨rfl, rfl, fun _ => rfl⟩
  · exact ⟨rfl, rfl, fun _ => rfl⟩
  · exact ⟨rfl, rfl, fun _ => rfl⟩
  · refine ⟨rfl, rfl, fun hf => ?_⟩
    rw [hf] at h7
    exact absurd h7 (by simp)
  · exact ⟨rfl, rfl, fun _ => rfl⟩
  · exact ⟨rfl, rfl, fun _ => rfl⟩

/-- C6, amended.  For a stream of one note-on followed by its note-off `d` ticks later
(same track, same key, no tempo event), on a channel of volume `V > 0`, at start tempo
`T > 0` with `P > 0` ticks per beat.  Let `timebase` be the double `60000 / T / P` of
line 127 and `p` the double product `d × timebase`.  Extraction yields exactly one note
when `p` truncated toward zero is positive, and no note otherwise; the note has that
truncated value as duration, starts at time 0 and has velocity
`rawVelocity × V / 1270`.  The millisecond clock, in contrast, advances over the same
`d` ticks by `floor(p + 0.5)`. -/
theorem extractNotes_single_pair (ops : DoubleOps) (lib : MidiLib) (tempo : ℚ)
    (volume : Nat → Int) (tpq : Nat) (noteOn noteOff : MFEvent) (d : Nat)
    (_htempo : 0 < tempo) (_htpq : 0 < tpq)
    (hTimbre : lib.isTimbre noteOn = false)
    (hCtl : (dataAt noteOn 0 &&& 0xf0) ≠ 0xb0)
    (hMeta : dataAt noteOn 0 ≠ 0xff)
    (hTempo : lib.isTempo noteOn = false)
    (hOn : lib.isNoteOn noteOn = true)
    (hV : 0 < volume (lib.getChannelNibble noteOn + 1))
    (hOff : lib.isNoteOff noteOff = true)
    (hOffTempo : lib.isTempo noteOff = false)
    (hTrack : noteOff.track = noteOn.track)
    (hKey : dataAt noteOff 1 = dataAt noteOn 1)
    (hd : noteOff.time = noteOn.time + d) :
    extractNotes ops lib tempo volume tpq [noteOn, noteOff]
        = (if 0 < truncToInt (ops.mul (d : ℚ) (ops.div (ops.div 60000 tempo) (tpq : ℚ))) then
            [{ channel := (lib.getChannelNibble noteOn : Int) + 1
               time := 0
               key := dataAt noteOn 1
               duration := truncToInt (ops.mul (d : ℚ) (ops.div (ops.div 60000 tempo) (tpq : ℚ)))
               velocity :=
                ops.div
                  (((dataAt noteOn 2 : Int) * volume (lib.getChannelNibble noteOn + 1) : Int) : ℚ)
                  1270 }]
          else [])
      ∧ (extractFrom ops lib tpq (initExtractor ops tempo volume tpq)
            [noteOn, noteOff]).currtime
          = roundHalfUp ops
              (ops.mul (noteOn.time : ℚ) (ops.div (ops.div 60000 tempo) (tpq : ℚ)))
            + roundHalfUp ops
                (ops.mul (d : ℚ) (ops.div (ops.div 60000 tempo) (tpq : ℚ))) := by
  have hticks : ((((noteOff.time : Int) - (noteOn.time : Int) : Int) : ℚ)) = (d : ℚ) := by
    rw [hd]
    push_cast
    ring
  have hfirst : (dispatchEvent ops lib tpq [noteOff] (initExtractor ops tempo volume tpq)
        noteOn).notes
      = if 0 < truncToInt (ops.mul (d : ℚ) (ops.div (ops.div 60000 tempo) (tpq : ℚ))) then
          [{ channel := (lib.getChannelNibble noteOn : Int) + 1
             time := 0
             key := dataAt noteOn 1
             duration := truncToInt (ops.mul (d : ℚ) (ops.div (ops.div 60000 tempo) (tpq : ℚ)))
             velocity :=
              ops.div
                (((dataAt noteOn 2 : Int) * volume (lib.getChannelNibble noteOn + 1) : Int) : ℚ)
                1270 }]
        else [] := by
    unfold dispatchEvent
    simp only [hTimbre, hTempo, hOn, hCtl, hMeta, initExtractor, hV, Bool.false_eq_true,
      false_and, and_false, if_false, true_and, and_self, if_true]
    simp only [scanNoteOff, hOff, hTrack, hKey, and_self, if_true, hticks]
    by_cases h0 : truncToInt (ops.mul (d : ℚ) (ops.div (ops.div 60000 tempo) (tpq : ℚ))) = 0
    · rw [if_pos h0, if_neg (by omega)]
    · rw [if_neg h0]
      by_cases h1 : 0 < truncToInt (ops.mul (d : ℚ) (ops.div (ops.div 60000 tempo) (tpq : ℚ)))
      · rw [if_pos h1, if_pos h1]
        simp
      · rw [if_neg h1, if_neg h1]
  constructor
  · unfold extractNotes
    simp only [extractFrom, processEvent]
    rw [dispatchEvent_last_notes]
    exact hfirst
  · obtain ⟨c1, o1, t1⟩ := dispatchEvent_frame ops lib tpq [noteOff]
      (initExtractor ops tempo volume tpq) noteOn
    obtain ⟨c2, o2, t2⟩ := dispatchEvent_frame ops lib tpq []
      (processEvent ops lib tpq [noteOff] (initExtractor ops tempo volume tpq) noteOn) noteOff
    simp only [extractFrom]
    show (dispatchEvent ops lib tpq []
        (processEvent ops lib tpq [noteOff] (initExtractor ops tempo volume tpq) noteOn)
        noteOff).currtime
      + roundHalfUp ops (ops.mul (((noteOff.time : Int)
          - ((dispatchEvent ops lib tpq []
              (processEvent ops lib tpq [noteOff] (initExtractor ops tempo volume tpq) noteOn)
              noteOff).oldticks : Int) : Int) : ℚ)
          (dispatchEvent ops lib tpq []
            (processEvent ops lib tpq [noteOff] (initExtractor ops tempo volume tpq) noteOn)
            noteOff).timebase) = _
    rw [c2, o2, t2 hOffTempo]
    show (dispatchEvent ops lib tpq [noteOff] (initExtractor ops tempo volume tpq)
        noteOn).currtime
      + roundHalfUp ops (ops.mul (((noteOn.time : Int)
          - ((dispatchEvent ops lib tpq [noteOff] (initExtractor ops tempo volume tpq)
              noteOn).oldticks : Int) : Int) : ℚ)
          (dispatchEvent ops lib tpq [noteOff] (initExtractor ops tempo volume tpq)
            noteOn).timebase)
      + roundHalfUp ops (ops.mul (((noteOff.time : Int) - (noteOn.time : Int) : Int) : ℚ)
          (dispatchEvent ops lib tpq [noteOff] (initExtractor ops tempo volume tpq)
            noteOn).timebase) = _
    rw [c1, o1, t1 hTempo, hticks]
    simp [initExtractor]

/-- The amended C6 at the stream `[noteOnEvent, noteOffEvent]`: 3 ticks at 1/2 ms per tick
give the product 3/2, a note of 1 ms, and a clock advance of 2 ms. -/
theorem extractNotes_single_pair_witness :
    (extractNotes exactOps statusByteLib 120 defaultVolume 1000 [noteOnEvent, noteOffEvent]
        = (if 0 < truncToInt (exactOps.mul ((3 : Nat) : ℚ)
              (exactOps.div (exactOps.div 60000 120) ((1000 : Nat) : ℚ))) then
            [{ channel := (statusByteLib.getChannelNibble noteOnEvent : Int) + 1
               time := 0
               key := dataAt noteOnEvent 1
               duration := truncToInt (exactOps.mul ((3 : Nat) : ℚ)
                (exactOps.div (exactOps.div 60000 120) ((1000 : Nat) : ℚ)))
               velocity :=
                exactOps.div
                  (((dataAt noteOnEvent 2 : Int)
                    * defaultVolume (statusByteLib.getChannelNibble noteOnEvent + 1) : Int) : ℚ)
                  1270 }]
          else [])
      ∧ (extractFrom exactOps statusByteLib 1000 (initExtractor exactOps 120 defaultVolume 1000)
            [noteOnEvent, noteOffEvent]).currtime
          = roundHalfUp exactOps
              (exactOps.mul (noteOnEvent.time : ℚ)
                (exactOps.div (exactOps.div 60000 120) ((1000 : Nat) : ℚ)))
            + roundHalfUp exactOps
                (exactOps.mul ((3 : Nat) : ℚ)
                  (exactOps.div (exactOps.div 60000 120) ((1000 : Nat) : ℚ))))
      ∧ truncToInt (exactOps.mul ((3 : Nat) : ℚ)
          (exactOps.div (exactOps.div 60000 120) ((1000 : Nat) : ℚ))) = 1
      ∧ roundHalfUp exactOps (exactOps.mul ((3 : Nat) : ℚ)
          (exactOps.div (exactOps.div 60000 120) ((1000 : Nat) : ℚ))) = 2 :=
  ⟨extractNotes_single_pair exactOps statusByteLib 120 defaultVolume 1000 noteOnEvent
      noteOffEvent 3
      (by norm_num) (by decide) (by decide) (by decide) (by decide) (by decide) (by decide)
      (by decide) (by decide) (by decide) (by decide) (by decide) (by decide),
    by decide!, by decide!⟩

/-! ## A run without pipes (C9) -/

theorem foldl_fixed (step : KeyTable → Nat → KeyTable) (keys : KeyTable)
    (h : ∀ j, step keys j = keys) : ∀ l : List Nat, l.foldl step keys = keys := by
  intro l
  induction l with
  | nil => rfl
  | cons j l ih => simp only [List.foldl_cons, h j, ih]

theorem foldUp_none (interval : Nat) : (foldUp interval (fun _ => none)).1 = fun _ => none :=
  foldl_fixed (foldUpStep interval) _ (fun j => by simp [foldUpStep]) _

theorem foldOctaves_none : foldOctaves (fun _ => none) = fun _ => none := by
  unfold foldOctaves
  rw [foldUp_none]
  exact foldl_fixed foldDownStep _ (fun j => by simp [foldDownStep]) _

theorem folded_none :
    (foldThirds (foldFifths (foldOctaves (fun _ => none)))).1 = fun _ => none := by
  rw [foldOctaves_none]
  unfold foldFifths foldThirds
  rw [foldUp_none, foldUp_none]

theorem resolveFrom_none : ∀ (todo : Nat) (notes : List Note),
    resolveFrom (fun _ => none) todo notes = notes := by
  intro todo
  induction todo with
  | zero => intro notes; rfl
  | succ k ih =>
    intro notes
    cases notes with
    | nil => rfl
    | cons n rest => simp only [resolveFrom, ih]

theorem playNotes_none (jit : Jitter) (mute : Bool) : ∀ (notes : List Note) (s : Player),
    notes.foldl (playNote jit (fun _ => none) mute) s = s := by
  intro notes
  induction notes with
  | nil => intro s; rfl
  | cons n rest ih =>
    intro s
    simp only [List.foldl_cons]
    rw [playNote_missing jit _ mute s n rfl]
    exact ih s

theorem playback_none_pulses (jit : Jitter) (mute : Bool) (notes : List Note) :
    ∀ s, playback jit (fun _ => none) mute notes = some s → s.pulses = [] := by
  intro s hs
  cases notes with
  | nil => simp [playback] at hs
  | cons first rest =>
    simp only [playback, playNotes_none, Option.some.injEq] at hs
    rw [← hs]
    rfl

/-- C9, as stated, fails: with no relay at all and a performance of one note, the run
reaches `return 0` without any error; it issues no pulse command. -/
theorem no_pipes_run_returns_zero :
    discoverPipes plainConfig.maxtune [] = []
      ∧ organMain exactOps plainConfig statusByteLib [] 1000 [noteOnEvent, noteOffEvent] (fun _ => 0)
          = Outcome.exited 0 [] := by
  decide!

/-- C9, amended.  If zero pipes are discovered then, for every performance, no pulse
command is issued; the run raises no hardware-discovery error: without the dynamics
option it ends with exit code 0 when at least one note was extracted and with exit
code 1 when none was. -/
theorem no_pipes_run (ops : DoubleOps) (cfg : Config) (lib : MidiLib) (tunes : List Nat) (tpq : Nat)
    (events : List MFEvent) (jit : Jitter)
    (hnone : discoverPipes cfg.maxtune tunes = []) :
    (organMain ops cfg lib tunes tpq events jit).pulses = []
      ∧ (cfg.applyvol = false →
          organMain ops cfg lib tunes tpq events jit
            = Outcome.exited
                (if (extractNotes ops lib cfg.tempo cfg.volume tpq events).length = 0 then 1 else 0)
                []) := by
  have hkeys : (foldThirds (foldFifths (foldOctaves
      (assignPipes (bestBasenote ops (countWeights ops
        (extractNotes ops lib cfg.tempo cfg.volume tpq events)) []) [] (fun _ => none))))).1
      = fun _ => none := by
    have : assignPipes (bestBasenote ops (countWeights ops
        (extractNotes ops lib cfg.tempo cfg.volume tpq events)) []) [] (fun _ => none)
        = fun _ => none := rfl
    rw [this]
    exact folded_none
  unfold organMain
  simp only [hnone, hkeys]
  by_cases hlen : (extractNotes ops lib cfg.tempo cfg.volume tpq events).length = 0
  · simp [hlen, Outcome.pulses]
  · simp only [hlen, if_false]
    have hplay : ∀ ns : List Note, ns.length ≠ 0 →
        playback jit (fun _ => none) cfg.mute (resolveConflicts (fun _ => none) ns)
          = some (startPlayer jit (ns.head?.map Note.time |>.getD 0)) := by
      intro ns hns
      unfold resolveConflicts
      rw [resolveFrom_none]
      cases ns with
      | nil => exact absurd rfl hns
      | cons first rest =>
        simp only [playback, playNotes_none]
        rfl
    constructor
    · cases hdyn : cfg.applyvol with
      | false =>
        simp only [Bool.false_eq_true, if_false]
        rw [hplay _ hlen]
        rfl
      | true =>
        simp only [if_true]
        cases hd : applyDynamics ops (foldThirds (foldFifths (foldOctaves
            (assignPipes (bestBasenote ops (countWeights ops
              (extractNotes ops lib cfg.tempo cfg.volume tpq events)) []) []
              (fun _ => none))))).2 (extractNotes ops lib cfg.tempo cfg.volume tpq events) with
        | none => rfl
        | some ns =>
          simp only
          cases hp : playback jit (fun _ => none) cfg.mute
              (resolveConflicts (fun _ => none) ns) with
          | none => rfl
          | some s =>
            simp only [Outcome.pulses]
            exact playback_none_pulses jit cfg.mute _ s hp
    · intro hdyn
      simp only [hdyn, Bool.false_eq_true, if_false]
      rw [hplay _ hlen]
      rfl

/-- The amended C9 at a run with no relay and the one-note stream. -/
theorem no_pipes_run_witness :
    discoverPipes plainConfig.maxtune [] = []
      ∧ (organMain exactOps plainConfig statusByteLib [] 1000 [noteOnEvent, noteOffEvent]
          (fun _ => 0)).pulses = [] :=
  ⟨rfl, (no_pipes_run exactOps plainConfig statusByteLib [] 1000 [noteOnEvent, noteOffEvent]
    (fun _ => 0) rfl).1⟩

/-! ## Direct assignment (C11, C12) and what the folding passes keep (C13) -/

/-- After the first `n` iterations of the loop of lines 221-225, the key of pipe `j`
holds pipe `j` unless a later pipe among the first `n` lands on the same key. -/
theorem assign_prefix_last (basenote : Nat) (pipes : List Nat) (keys : KeyTable)
    (hb : basenote < 128) :
    ∀ (n j : Nat), j < n →
      (∀ k, j < k → k < n → pipes.getD k 0 ≠ pipes.getD j 0) →
      (List.range n).foldl
        (fun ks i =>
          if basenote + pipes.getD pipes.length 0 < 128 then
            Function.update ks (basenote + pipes.getD i 0) (some i)
          else ks)
        keys (basenote + pipes.getD j 0) = some j := by
  have hg : basenote + pipes.getD pipes.length 0 < 128 := by
    rw [List.getD_eq_default _ _ (le_refl _)]
    exact hb
  intro n
  induction n with
  | zero => intro j hj; exact absurd hj (Nat.not_lt_zero j)
  | succ n ih =>
    intro j hj hlast
    rw [List.range_succ, List.foldl_append]
    simp only [List.foldl_cons, List.foldl_nil, hg, if_true]
    rcases Nat.lt_succ_iff_lt_or_eq.mp hj with hlt | heq
    · have hne : basenote + pipes.getD j 0 ≠ basenote + pipes.getD n 0 := by
        have := hlast n hlt (Nat.lt_succ_self n)
        omega
      rw [Function.update_noteq hne]
      have ih2 := ih j hlt (fun k hjk hkn => hlast k hjk (Nat.lt_succ_of_lt hkn))
      simp only [hg, if_true] at ih2
      exact ih2
    · rw [heq, Function.update_same]

/-- C11, as stated, fails: two pipes with offset 5 both land on key 65 for base note 60,
and the key ends up with pipe 1, the later one, not pipe 0. -/
theorem assignPipes_later_pipe_replaces :
    60 + [5, 5].getD 0 0 = 60 + [5, 5].getD 1 0
      ∧ assignPipes 60 [5, 5] (fun _ => none) 65 = some 1
      ∧ assignPipes 60 [5, 5] (fun _ => none) 65 ≠ some 0 := by
  decide

/-- C11, amended.  In direct assignment (for a base note below 128, as the search
always leaves), the key of pipe `j` ends up assigned to pipe `j` whenever no pipe
later in discovery order lands on the same key: among the pipes that land on one key
the last one in discovery order keeps it, replacing the earlier ones. -/
theorem assignPipes_last_wins (basenote : Nat) (pipes : List Nat) (keys : KeyTable)
    (j : Nat) (hb : basenote < 128) (hj : j < pipes.length)
    (hlast : ∀ k, j < k → k < pipes.length → pipes.getD k 0 ≠ pipes.getD j 0) :
    assignPipes basenote pipes keys (basenote + pipes.getD j 0) = some j :=
  assign_prefix_last basenote pipes keys hb pipes.length j hj hlast

/-- The amended C11 at the two pipes of offset 5: pipe 1 is the last on key 65. -/
theorem assignPipes_last_wins_witness :
    (60 < 128 ∧ 1 < [5, 5].length)
      ∧ assignPipes 60 [5, 5] (fun _ => none) (60 + [5, 5].getD 1 0) = some 1 :=
  ⟨by decide,
    assignPipes_last_wins 60 [5, 5] (fun _ => none) 1 (by decide) (by decide)
      (fun k h1 h2 => by simp only [List.length_cons, List.length_nil] at h2; omega)⟩

/-- C12, evaluated where the code departs from it.  With the pipes of offsets 0, 2 and
99 and notes on the keys 100 and 102 the search chooses base note 100; pipe 2 has
`100 + 99 ≥ 128`, yet the guard of line 222 reads `pipes[j]` with `j = npipes` (a zeroed
slot) and lets the write through: slot 199, past the 128 keys, receives pipe 2. -/
theorem assignPipes_writes_past_the_keys :
    bestBasenote exactOps (countWeights exactOps highNotes) [0, 2, 99] = 100
      ∧ ¬ (100 + [0, 2, 99].getD 2 0 < 128)
      ∧ assignPipes 100 [0, 2, 99] (fun _ => none) 199 = some 2 := by
  decide!

theorem foldUpStep_preserves (interval : Nat) (keys : KeyTable) (i k p : Nat)
    (h : keys k = some p) : foldUpStep interval keys i k = some p := by
  unfold foldUpStep
  split_ifs with hc
  · have hne : k ≠ i + interval := by
      intro hk
      rw [hk, hc.1] at h
      exact absurd h (by simp)
    rw [Function.update_noteq hne]; exact h
  · exact h

theorem foldDownStep_preserves (keys : KeyTable) (i k p : Nat)
    (h : keys k = some p) : foldDownStep keys i k = some p := by
  unfold foldDownStep
  split_ifs with hc
  · have hne : k ≠ i - 12 := by
      intro hk
      rw [hk, hc.1] at h
      exact absurd h (by simp)
    rw [Function.update_noteq hne]; exact h
  · exact h

theorem foldl_preserves (step : KeyTable → Nat → KeyTable) (k p : Nat)
    (hstep : ∀ keys i, keys k = some p → step keys i k = some p) :
    ∀ (l : List Nat) (keys : KeyTable), keys k = some p → l.foldl step keys k = some p := by
  intro l
  induction l with
  | nil => intro keys h; exact h
  | cons i l ih =>
    intro keys h
    simp only [List.foldl_cons]
    exact ih _ (hstep keys i h)

theorem foldUp_preserves (interval : Nat) (keys : KeyTable) (k p : Nat)
    (h : keys k = some p) : (foldUp interval keys).1 k = some p :=
  foldl_preserves (foldUpStep interval) k p
    (fun t i ht => foldUpStep_preserves interval t i k p ht) _ keys h

theorem foldOctaves_preserves (keys : KeyTable) (k p : Nat)
    (h : keys k = some p) : foldOctaves keys k = some p :=
  foldl_preserves foldDownStep k p (fun t i ht => foldDownStep_preserves t i k p ht) _ _
    (foldUp_preserves 12 keys k p h)

/-- C13.  A key that holds pipe `p` before the folding passes (in particular after
direct assignment) holds the same pipe after octave up, after octave down, after the
fifths and after the `+16` pass.  Each step of a pass changes at most one slot: a slot
that had no pipe, `i + interval` (`i - 12` going down), which receives the pipe that
slot `i` holds at that moment. -/
theorem folding_keeps_assignments (keys : KeyTable) (k p : Nat) (h : keys k = some p) :
    (foldUp 12 keys).1 k = some p
      ∧ foldOctaves keys k = some p
      ∧ foldFifths (foldOctaves keys) k = some p
      ∧ (foldThirds (foldFifths (foldOctaves keys))).1 k = some p
      ∧ (∀ (interval : Nat) (t : KeyTable) (i k2 : Nat),
          foldUpStep interval t i k2 ≠ t k2 →
            t k2 = none ∧ k2 = i + interval ∧ foldUpStep interval t i k2 = t i)
      ∧ (∀ (t : KeyTable) (i k2 : Nat),
          foldDownStep t i k2 ≠ t k2 →
            t k2 = none ∧ k2 = i - 12 ∧ foldDownStep t i k2 = t i) := by
  refine ⟨foldUp_preserves 12 keys k p h, foldOctaves_preserves keys k p h,
    foldUp_preserves 7 _ k p (foldOctaves_preserves keys k p h),
    foldUp_preserves 16 _ k p (foldUp_preserves 7 _ k p (foldOctaves_preserves keys k p h)),
    ?_, ?_⟩
  · intro interval t i k2 hne
    unfold foldUpStep at hne ⊢
    split_ifs at hne ⊢ with hc
    · by_cases hk : k2 = i + interval
      · subst hk
        rw [Function.update_same]
        exact ⟨hc.1, rfl, rfl⟩
      · rw [Function.update_noteq hk] at hne
        exact absurd rfl hne
    · exact absurd rfl hne
  · intro t i k2 hne
    unfold foldDownStep at hne ⊢
    split_ifs at hne ⊢ with hc
    · by_cases hk : k2 = i - 12
      · subst hk
        rw [Function.update_same]
        exact ⟨hc.1, rfl, rfl⟩
      · rw [Function.update_noteq hk] at hne
        exact absurd rfl hne
    · exact absurd rfl hne

/-- C13 at the table `oneKey`: key 60 keeps pipe 0 through all passes. -/
theorem folding_keeps_assignments_witness :
    oneKey 60 = some 0
      ∧ (foldThirds (foldFifths (foldOctaves oneKey))).1 60 = some 0 :=
  ⟨by decide, (folding_keeps_assignments oneKey 60 0 (by decide)).2.2.2.1⟩

/-! ## Playback: skipped notes (C17) -/

/-- C17.  A note with `duration ≤ 0`, and a note whose key has no pipe, leave the whole
state of the playback loop as it is: no pulse command is added, `startTime` and the
`busyUntil` of every pipe are unchanged. -/
theorem skipped_note_changes_nothing (jit : Jitter) (keys : KeyTable) (mute : Bool)
    (s : Player) (note : Note) (h : note.duration ≤ 0 ∨ keys note.key = none) :
    playNote jit keys mute s note = s
      ∧ (playNote jit keys mute s note).pulses = s.pulses
      ∧ (playNote jit keys mute s note).startTime = s.startTime
      ∧ ∀ q, (playNote jit keys mute s note).busyUntil q = s.busyUntil q := by
  have hs : playNote jit keys mute s note = s := by
    rcases h with h | h
    · exact playNote_cancelled jit keys mute s note h
    · exact playNote_missing jit keys mute s note h
  rw [hs]
  exact ⟨rfl, rfl, rfl, fun _ => rfl⟩

/-- C17 at a cancelled note on a key that has a pipe. -/
theorem skipped_note_changes_nothing_witness :
    (cancelledNote.duration ≤ 0 ∨ oneKey cancelledNote.key = none)
      ∧ playNote (fun _ => 0) oneKey false (startPlayer (fun _ => 0) 0) cancelledNote
          = startPlayer (fun _ => 0) 0 :=
  ⟨Or.inl (by decide),
    (skipped_note_changes_nothing (fun _ => 0) oneKey false (startPlayer (fun _ => 0) 0)
      cancelledNote (Or.inl (by decide))).1⟩

/-! ## Dynamics on a short piece (C19) -/

/-- C19, evaluated where the code departs from it.  The `+16` loop leaves `i = 112`; on
a piece of one note `notes.at(112)` of line 255 throws, and a run with `-dyn` on the
one-note stream ends with the uncaught exception instead of playing. -/
theorem dynamics_seed_index_out_of_range :
    (foldThirds (fun _ => none)).2 = 112
      ∧ applyDynamics exactOps (foldThirds (fun _ => none)).2 [quietNote] = none
      ∧ organMain exactOps dynConfig statusByteLib [0] 1000 [noteOnEvent, noteOffEvent] (fun _ => 0)
          = Outcome.aborted := by
  decide!

/-! ## Extraction: which note-off ends a note (C14) -/

/-- C14, as stated, fails.  In the stream note-on, note-off at the same tick, note-off
four ticks later (same track, same key), the first matching note-off gives duration 0;
the scan goes on to the second one and a note of 2 ms is produced. -/
theorem zero_duration_off_is_skipped :
    isMatchingOff statusByteLib noteOnEvent 60 sameTickOffEvent = true
      ∧ offDuration exactOps noteOnEvent (60000 / 120 / 1000) sameTickOffEvent = 0
      ∧ extractNotes exactOps statusByteLib 120 defaultVolume 1000
          [noteOnEvent, sameTickOffEvent, lateOffEvent]
        = [{ channel := 1, time := 0, key := 60, duration := 2, velocity := 100 * 10 / 1270 }] := by
  decide!

theorem firstSoundingOff_cons_match (ops : DoubleOps) (lib : MidiLib) (iEvent : MFEvent) (key : Nat)
    (timebase : ℚ) (j : MFEvent) (later : List MFEvent)
    (hb : isMatchingOff lib iEvent key j = true) :
    firstSoundingOff ops lib iEvent key timebase (j :: later)
      = if offDuration ops iEvent timebase j = 0 then
          firstSoundingOff ops lib iEvent key timebase later
        else some (offDuration ops iEvent timebase j) := by
  unfold firstSoundingOff
  rw [List.filter_cons_of_pos hb, List.map_cons, List.find?_cons]
  by_cases h0 : offDuration ops iEvent timebase j = 0
  · simp [h0]
  · simp [h0]

theorem firstSoundingOff_cons_skip (ops : DoubleOps) (lib : MidiLib) (iEvent : MFEvent) (key : Nat)
    (timebase : ℚ) (j : MFEvent) (later : List MFEvent)
    (hb : ¬ isMatchingOff lib iEvent key j = true) :
    firstSoundingOff ops lib iEvent key timebase (j :: later)
      = firstSoundingOff ops lib iEvent key timebase later := by
  unfold firstSoundingOff
  rw [List.filter_cons_of_neg hb]

/-- C14, amended.  The loop of lines 176-186 consults the note-offs on the same track
and same key in scan order and skips those whose computed duration is zero; it stops
at the first one whose duration is not zero and pushes the note with that duration if
it is positive.  When there is no such note-off (none matches, or all give zero) no
note is pushed. -/
theorem scanNoteOff_first_nonzero (ops : DoubleOps)
    (lib : MidiLib) (iEvent : MFEvent) (timebase : ℚ)
    (note : Note) (notes : List Note) (later : List MFEvent) :
    scanNoteOff ops lib iEvent timebase note notes later
      = match firstSoundingOff ops lib iEvent note.key timebase later with
        | some d => if d > 0 then notes ++ [{ note with duration := d }] else notes
        | none => notes := by
  induction later with
  | nil => rfl
  | cons j later ih =>
    unfold scanNoteOff
    have hdur : truncToInt (ops.mul (((j.time : Int) - (iEvent.time : Int) : Int) : ℚ) timebase)
        = offDuration ops iEvent timebase j := rfl
    by_cases hm : lib.isNoteOff j = true ∧ j.track = iEvent.track ∧ dataAt j 1 = note.key
    · have hb : isMatchingOff lib iEvent note.key j = true := by
        simp [isMatchingOff, hm.1, hm.2.1, hm.2.2]
      rw [if_pos hm, firstSoundingOff_cons_match ops lib iEvent note.key timebase j later hb]
      simp only [hdur]
      by_cases h0 : offDuration ops iEvent timebase j = 0
      · rw [if_pos h0, if_pos h0, ih]
      · rw [if_neg h0, if_neg h0]
    · have hb : ¬ isMatchingOff lib iEvent note.key j = true := by
        intro hb
        simp only [isMatchingOff, Bool.and_eq_true, decide_eq_true_eq] at hb
        exact hm ⟨hb.1.1, hb.1.2, hb.2⟩
      rw [if_neg hm, firstSoundingOff_cons_skip ops lib iEvent note.key timebase j later hb, ih]

/-! ## Playback: the delay of a pulse (C15) -/

theorem playNotes_delay_nonneg (jit : Jitter) (keys : KeyTable) (mute : Bool) :
    ∀ (notes : List Note) (s : Player), (∀ c ∈ s.pulses, 0 ≤ c.delay) →
      ∀ c ∈ (notes.foldl (playNote jit keys mute) s).pulses, 0 ≤ c.delay := by
  intro notes
  induction notes with
  | nil => intro s h; exact h
  | cons note rest ih =>
    intro s h
    simp only [List.foldl_cons]
    apply ih
    by_cases hd : note.duration ≤ 0
    · rw [playNote_cancelled jit keys mute s note hd]; exact h
    · cases hk : keys note.key with
      | none => rw [playNote_missing jit keys mute s note hk]; exact h
      | some pipe =>
        rw [playNote_sounding jit keys mute s note pipe (by omega) hk]
        have hw := (computeWait_spec jit s.startTime note
          (waitForPipe jit s.startTime (s.busyUntil pipe) note s.clock)).2.1
        cases mute with
        | true => exact h
        | false =>
          intro c hc
          simp only [Bool.false_eq_true, if_false, List.mem_append, List.mem_singleton] at hc
          rcases hc with hc | rfl
          · exact h c hc
          · exact hw

/-- C15.  For a note of positive duration whose key has pipe `pipe`, with `now` the
clock reading of line 324: when `startTime + note.time - now` is negative, `startTime`
becomes the clock reading of line 328 minus `note.time` and the delay is 0; otherwise
`startTime` is unchanged and the delay is `startTime + note.time - now`.  In both cases
the delay is not negative, the pulse (issued unless muted) carries that delay and the
duration of the note, and `busyUntil` of the pipe becomes the resulting
`startTime + note.time + note.duration`.  Hence every pulse of a run has a delay `≥ 0`. -/
theorem scheduled_delay_and_resync (jit : Jitter) (keys : KeyTable) (mute : Bool)
    (s : Player) (note : Note) (pipe : Nat)
    (hd : 0 < note.duration) (hk : keys note.key = some pipe) :
    ∃ delay : Int,
      0 ≤ delay
        ∧ (if s.startTime + note.time - readingAtSchedule jit s note pipe < 0 then
            (playNote jit keys mute s note).startTime
                = readingAtResync jit s note pipe - note.time
              ∧ delay = 0
          else
            (playNote jit keys mute s note).startTime = s.startTime
              ∧ delay = s.startTime + note.time - readingAtSchedule jit s note pipe)
        ∧ (playNote jit keys mute s note).busyUntil pipe
            = (playNote jit keys mute s note).startTime + note.time + note.duration
        ∧ (mute = false → ∃ issuedAt,
            (playNote jit keys mute s note).pulses
              = s.pulses ++ [{ pipe := pipe, delay := delay, duration := note.duration,
                               issuedAt := issuedAt }])
        ∧ ∀ (notes : List Note) (s0 : Player), (∀ c ∈ s0.pulses, 0 ≤ c.delay) →
            ∀ c ∈ (notes.foldl (playNote jit keys mute) s0).pulses, 0 ≤ c.delay := by
  refine ⟨(computeWait jit s.startTime note
    (waitForPipe jit s.startTime (s.busyUntil pipe) note s.clock)).2.1, ?_, ?_, ?_, ?_, ?_⟩
  · exact (computeWait_spec jit s.startTime note _).2.1
  · rw [playNote_sounding jit keys mute s note pipe hd hk]
    simp only [readingAtSchedule, readingAtResync, computeWait]
    split_ifs <;> exact ⟨rfl, rfl⟩
  · rw [playNote_sounding jit keys mute s note pipe hd hk]
    simp only [Function.update_same]
  · intro hm
    rw [playNote_sounding jit keys mute s note pipe hd hk]
    subst hm
    exact ⟨_, rfl⟩
  · exact playNotes_delay_nonneg jit keys mute

/-- C15 at `quietNote` played first on pipe 0 with a clock that never jumps: the pulse
is issued with the lead-in still ahead. -/
theorem scheduled_delay_and_resync_witness :
    (0 < quietNote.duration ∧ oneKey quietNote.key = some 0)
      ∧ ∃ delay : Int, 0 ≤ delay
        ∧ (playNote (fun _ => 0) oneKey false (startPlayer (fun _ => 0) 0) quietNote).busyUntil 0
            = (playNote (fun _ => 0) oneKey false (startPlayer (fun _ => 0) 0) quietNote).startTime
              + quietNote.time + quietNote.duration := by
  refine ⟨by decide, ?_⟩
  obtain ⟨delay, h1, _, h3, _⟩ := scheduled_delay_and_resync (fun _ => 0) oneKey false
    (startPlayer (fun _ => 0) 0) quietNote 0 (by decide) (by decide)
  exact ⟨delay, h1, h3⟩

/-! ## Extraction: channel volumes (C16, C20) -/

theorem processEvent_volume (ops : DoubleOps)
    (lib : MidiLib) (tpq : Nat) (later : List MFEvent) (x : Extractor)
    (e : MFEvent) :
    (processEvent ops lib tpq later x e).volume = (dispatchEvent ops lib tpq later x e).volume :=
  rfl

theorem processEvent_notes (ops : DoubleOps)
    (lib : MidiLib) (tpq : Nat) (later : List MFEvent) (x : Extractor)
    (e : MFEvent) :
    (processEvent ops lib tpq later x e).notes = (dispatchEvent ops lib tpq later x e).notes :=
  rfl

/-- C16.  For an instrument-change event, with `ch` its channel: the volume of `ch`
keeps its magnitude; when it was not 0 it ends negative if the instrument id
(`data[1]`) is at least 112 and positive otherwise; when it was 0 it stays 0; and the
volume of every other channel is unchanged. -/
theorem instrument_change_sets_sign (ops : DoubleOps)
    (lib : MidiLib) (tpq : Nat) (later : List MFEvent)
    (x : Extractor) (e : MFEvent) (h : lib.isTimbre e = true) :
    |(processEvent ops lib tpq later x e).volume (lib.getChannelNibble e + 1)|
        = |x.volume (lib.getChannelNibble e + 1)|
      ∧ (x.volume (lib.getChannelNibble e + 1) ≠ 0 → dataAt e 1 ≥ 112 →
          (processEvent ops lib tpq later x e).volume (lib.getChannelNibble e + 1) < 0)
      ∧ (x.volume (lib.getChannelNibble e + 1) ≠ 0 → dataAt e 1 < 112 →
          (processEvent ops lib tpq later x e).volume (lib.getChannelNibble e + 1) > 0)
      ∧ (x.volume (lib.getChannelNibble e + 1) = 0 →
          (processEvent ops lib tpq later x e).volume (lib.getChannelNibble e + 1) = 0)
      ∧ ∀ c, c ≠ lib.getChannelNibble e + 1 →
          (processEvent ops lib tpq later x e).volume c = x.volume c := by
  rw [processEvent_volume]
  by_cases hv : x.volume (lib.getChannelNibble e + 1) = 0
  · have hsame : (dispatchEvent ops lib tpq later x e).volume = x.volume := by
      unfold dispatchEvent
      simp only [hv, ne_eq, not_true_eq_false, and_false, if_false, gt_iff_lt, lt_irrefl,
        false_and]
      split_ifs <;> rfl
    rw [hsame]
    exact ⟨rfl, fun h0 => absurd hv h0, fun h0 => absurd hv h0, fun _ => hv, fun _ _ => rfl⟩
  · unfold dispatchEvent
    simp only [h, ne_eq, hv, not_false_eq_true, and_self, if_true]
    split_ifs with h1 h2 h3
    · simp only [Function.update_same]
      refine ⟨abs_neg _, fun _ _ => by omega, fun _ h4 => by omega, fun h0 => False.elim h0, ?_⟩
      intro c hc
      rw [Function.update_noteq hc]
    · exact ⟨rfl, fun _ _ => by omega, fun _ h4 => by omega, fun h0 => False.elim h0,
        fun _ _ => rfl⟩
    · simp only [Function.update_same]
      refine ⟨abs_neg _, fun _ h4 => by omega, fun _ _ => by omega, fun h0 => False.elim h0, ?_⟩
      intro c hc
      rw [Function.update_noteq hc]
    · exact ⟨rfl, fun _ h4 => by omega, fun _ _ => by omega, fun h0 => False.elim h0,
        fun _ _ => rfl⟩

/-- C16 at a change to a percussion instrument on channel 1, from the default volumes:
the volume of channel 1 goes from 10 to -10. -/
theorem instrument_change_sets_sign_witness :
    statusByteLib.isTimbre percussionEvent = true
      ∧ |(processEvent exactOps statusByteLib 1000 [] (initExtractor exactOps 120 defaultVolume 1000)
            percussionEvent).volume (statusByteLib.getChannelNibble percussionEvent + 1)|
          = |(initExtractor exactOps 120 defaultVolume 1000).volume
              (statusByteLib.getChannelNibble percussionEvent + 1)| :=
  ⟨by decide,
    (instrument_change_sets_sign exactOps statusByteLib 1000 [] (initExtractor exactOps 120 defaultVolume 1000)
      percussionEvent (by decide)).1⟩

/-- One event leaves a channel of volume 0 at volume 0, and a note it pushes is on
another channel. -/
theorem dispatchEvent_muted (ops : DoubleOps) (lib : MidiLib) (tpq : Nat) (later : List MFEvent)
    (x : Extractor) (e : MFEvent) (ch : Nat) (h : x.volume ch = 0) :
    (dispatchEvent ops lib tpq later x e).volume ch = 0
      ∧ ∃ added, (dispatchEvent ops lib tpq later x e).notes = x.notes ++ added
          ∧ ∀ n ∈ added, n.channel ≠ (ch : Int) := by
  have hnil : ∃ added : List Note, x.notes = x.notes ++ added
      ∧ ∀ n ∈ added, n.channel ≠ (ch : Int) := ⟨[], by simp, by simp⟩
  by_cases hc : lib.getChannelNibble e + 1 = ch
  · unfold dispatchEvent
    simp only [hc, h, ne_eq, not_true_eq_false, and_false, if_false, gt_iff_lt, lt_irrefl,
      false_and]
    split_ifs
    · exact ⟨h, hnil⟩
    · exact ⟨h, hnil⟩
    · exact ⟨h, hnil⟩
  · have hne : ch ≠ lib.getChannelNibble e + 1 := fun hh => hc hh.symm
    unfold dispatchEvent
    simp only
    split_ifs
    · exact ⟨by simp only [Function.update_noteq hne, h], hnil⟩
    · exact ⟨h, hnil⟩
    · exact ⟨by simp only [Function.update_noteq hne, h], hnil⟩
    · exact ⟨h, hnil⟩
    · exact ⟨by simp only [Function.update_noteq hne, h], hnil⟩
    · exact ⟨h, hnil⟩
    · exact ⟨h, hnil⟩
    · refine ⟨h, ?_⟩
      simp only
      rcases scanNoteOff_cases ops lib e x.timebase
          { channel := ((lib.getChannelNibble e + 1 : Nat) : Int), time := x.currtime,
            key := dataAt e 1, duration := 0,
            velocity :=
              ops.div (((dataAt e 2 : Int) * x.volume (lib.getChannelNibble e + 1) : Int) : ℚ)
                1270 }
          x.notes later with hs | ⟨d, hs⟩
      · rw [hs]; exact hnil
      · rw [hs]
        refine ⟨_, rfl, ?_⟩
        intro n hn
        simp only [List.mem_singleton] at hn
        subst hn
        simp only
        intro hh
        exact hc (by exact_mod_cast hh)
    · exact ⟨h, hnil⟩

theorem extractFrom_muted (ops : DoubleOps) (lib : MidiLib) (tpq : Nat) (ch : Nat) :
    ∀ (events : List MFEvent) (x : Extractor), x.volume ch = 0 →
      (extractFrom ops lib tpq x events).volume ch = 0
        ∧ ∃ added, (extractFrom ops lib tpq x events).notes = x.notes ++ added
            ∧ ∀ n ∈ added, n.channel ≠ (ch : Int) := by
  intro events
  induction events with
  | nil => intro x h; exact ⟨h, [], by simp [extractFrom], by simp⟩
  | cons e later ih =>
    intro x h
    obtain ⟨hv, a1, hn1, hc1⟩ := dispatchEvent_muted ops lib tpq later x e ch h
    have hv2 : (processEvent ops lib tpq later x e).volume ch = 0 := by
      rw [processEvent_volume]; exact hv
    obtain ⟨hv3, a2, hn2, hc2⟩ := ih (processEvent ops lib tpq later x e) hv2
    simp only [extractFrom]
    refine ⟨hv3, a1 ++ a2, ?_, ?_⟩
    · rw [hn2, processEvent_notes, hn1, List.append_assoc]
    · intro n hn
      rcases List.mem_append.mp hn with hn | hn
      · exact hc1 n hn
      · exact hc2 n hn

/-- C20.  Once the volume of channel `ch` is 0, in whatever state `x` of the extraction
loop, it is 0 after all remaining events, whatever they are, and every note pushed
from then on is on another channel.  In particular a channel that starts at volume 0
contributes no note.  A volume-controller event on an audible channel whose value
`× 10 / 127` truncates to 0 puts the channel in that state. -/
theorem muted_channel_stays_muted (ops : DoubleOps)
    (lib : MidiLib) (tpq : Nat) (events : List MFEvent)
    (x : Extractor) (ch : Nat) (h : x.volume ch = 0) :
    (extractFrom ops lib tpq x events).volume ch = 0
      ∧ (∃ added, (extractFrom ops lib tpq x events).notes = x.notes ++ added
          ∧ ∀ n ∈ added, n.channel ≠ (ch : Int))
      ∧ (x.notes = [] → ∀ n ∈ (extractFrom ops lib tpq x events).notes, n.channel ≠ (ch : Int))
      ∧ ∀ (y : Extractor) (e : MFEvent) (later : List MFEvent),
          lib.isTimbre e = false → (dataAt e 0 &&& 0xf0) = 0xb0 →
          y.volume (lib.getChannelNibble e + 1) > 0 → dataAt e 1 = 7 →
          dataAt e 2 * 10 / 127 = 0 →
          (processEvent ops lib tpq later y e).volume (lib.getChannelNibble e + 1) = 0 := by
  obtain ⟨hv, added, hn, hc⟩ := extractFrom_muted ops lib tpq ch events x h
  refine ⟨hv, ⟨added, hn, hc⟩, ?_, ?_⟩
  · intro hx n hmem
    rw [hn, hx, List.nil_append] at hmem
    exact hc n hmem
  · intro y e later h1 h2 h3 h4 h5
    rw [processEvent_volume]
    unfold dispatchEvent
    simp only [h1, h2, h3, h4, h5, Bool.false_eq_true, false_and, if_false, and_self, if_true,
      Function.update_same]
    rfl

/-- C20 at the default volumes, where channel 10 is at 0: a note-on and note-off on
channel 10 leave the volume at 0. -/
theorem muted_channel_stays_muted_witness :
    (initExtractor exactOps 120 defaultVolume 1000).volume 10 = 0
      ∧ (extractFrom exactOps statusByteLib 1000 (initExtractor exactOps 120 defaultVolume 1000)
          [drumOnEvent, drumOffEvent]).volume 10 = 0 :=
  ⟨by decide,
    (muted_channel_stays_muted exactOps statusByteLib 1000 [drumOnEvent, drumOffEvent]
      (initExtractor exactOps 120 defaultVolume 1000) 10 (by decide)).1⟩

/-! ## Octave folding fills a pitch class (C18) -/

theorem foldUpStep_other (interval : Nat) (t : KeyTable) (i k : Nat) (hk : k ≠ i + interval) :
    foldUpStep interval t i k = t k := by
  unfold foldUpStep
  split_ifs
  · rw [Function.update_noteq hk]
  · rfl

theorem foldUpStep_target (interval : Nat) (t : KeyTable) (i : Nat) :
    (foldUpStep interval t i (i + interval)).isSome = true
      ↔ (t (i + interval)).isSome = true ∨ (t i).isSome = true := by
  unfold foldUpStep
  split_ifs with hc
  · rw [Function.update_same]
    constructor
    · intro h; exact Or.inr h
    · intro _; exact Option.isSome_iff_ne_none.mpr hc.2
  · constructor
    · intro h; exact Or.inl h
    · intro h
      rcases h with h | h
      · exact h
      · by_contra hn
        apply hc
        refine ⟨?_, Option.isSome_iff_ne_none.mp h⟩
        cases ht : t (i + interval) with
        | none => rfl
        | some v => rw [ht] at hn; exact absurd rfl hn

theorem foldDownStep_other (t : KeyTable) (i k : Nat) (hk : k ≠ i - 12) :
    foldDownStep t i k = t k := by
  unfold foldDownStep
  split_ifs
  · rw [Function.update_noteq hk]
  · rfl

theorem foldDownStep_target (t : KeyTable) (i : Nat) :
    (foldDownStep t i (i - 12)).isSome = true
      ↔ (t (i - 12)).isSome = true ∨ (t i).isSome = true := by
  unfold foldDownStep
  split_ifs with hc
  · rw [Function.update_same]
    constructor
    · intro h; exact Or.inr h
    · intro _; exact Option.isSome_iff_ne_none.mpr hc.2
  · constructor
    · intro h; exact Or.inl h
    · intro h
      rcases h with h | h
      · exact h
      · by_contra hn
        apply hc
        refine ⟨?_, Option.isSome_iff_ne_none.mp h⟩
        cases ht : t (i - 12) with
        | none => rfl
        | some v => rw [ht] at hn; exact absurd rfl hn

theorem assignedBelow_low (keys : KeyTable) (k : Nat) (hk : k < 12) :
    AssignedBelow keys k ↔ (keys k).isSome = true := by
  constructor
  · rintro ⟨j, hj, h⟩
    have : j = 0 := by omega
    subst this
    simpa using h
  · intro h
    exact ⟨0, by omega, by simpa using h⟩

theorem assignedBelow_step (keys : KeyTable) (k : Nat) :
    AssignedBelow keys (k + 12) ↔ (keys (k + 12)).isSome = true ∨ AssignedBelow keys k := by
  constructor
  · rintro ⟨j, hj, h⟩
    cases j with
    | zero => left; simpa using h
    | succ j =>
      right
      refine ⟨j, by omega, ?_⟩
      have : k + 12 - 12 * (j + 1) = k - 12 * j := by omega
      rw [this] at h
      exact h
  · intro h
    rcases h with h | ⟨j, hj, h⟩
    · exact ⟨0, by omega, by simpa using h⟩
    · refine ⟨j + 1, by omega, ?_⟩
      have : k + 12 - 12 * (j + 1) = k - 12 * j := by omega
      rw [this]
      exact h

theorem assignedAbove_top (t : KeyTable) (k : Nat) (hk : 116 ≤ k) (hk2 : k < 128) :
    AssignedAbove t k ↔ (t k).isSome = true := by
  constructor
  · rintro ⟨j, hj, h⟩
    have : j = 0 := by omega
    subst this
    simpa using h
  · intro h
    exact ⟨0, by omega, by simpa using h⟩

theorem assignedAbove_step (t : KeyTable) (k : Nat) (hk : k + 12 < 128) :
    AssignedAbove t k ↔ (t k).isSome = true ∨ AssignedAbove t (k + 12) := by
  constructor
  · rintro ⟨j, hj, h⟩
    cases j with
    | zero => left; simpa using h
    | succ j =>
      right
      refine ⟨j, by omega, ?_⟩
      have : k + 12 + 12 * j = k + 12 * (j + 1) := by omega
      rw [this]
      exact h
  · intro h
    rcases h with h | ⟨j, hj, h⟩
    · exact ⟨0, by omega, by simpa using h⟩
    · refine ⟨j + 1, by omega, ?_⟩
      have : k + 12 * (j + 1) = k + 12 + 12 * j := by omega
      rw [this]
      exact h

/-- The ascending octave scan after its first `n` iterations: the slots below `n + 12`
are final, the others untouched. -/
theorem octaveUp_steps (keys : KeyTable) (n : Nat) :
    (∀ k, k < n + 12 →
        (((List.range n).foldl (foldUpStep 12) keys k).isSome = true ↔ AssignedBelow keys k))
      ∧ ∀ k, n + 12 ≤ k → (List.range n).foldl (foldUpStep 12) keys k = keys k := by
  induction n with
  | zero =>
    refine ⟨?_, fun k _ => rfl⟩
    intro k hk
    simp only [List.range_zero, List.foldl_nil]
    exact (assignedBelow_low keys k (by omega)).symm
  | succ n ih =>
    obtain ⟨ih1, ih2⟩ := ih
    rw [List.range_succ, List.foldl_append]
    simp only [List.foldl_cons, List.foldl_nil]
    refine ⟨?_, ?_⟩
    · intro k hk
      by_cases hkn : k = n + 12
      · subst hkn
        rw [foldUpStep_target, ih2 (n + 12) (le_refl _), ih1 n (by omega), assignedBelow_step]
      · rw [foldUpStep_other 12 _ n k hkn]
        exact ih1 k (by omega)
    · intro k hk
      rw [foldUpStep_other 12 _ n k (by omega)]
      exact ih2 k (by omega)

theorem descending_indices :
    (List.range' 12 116).reverse = (List.range 116).map (fun t => 127 - t) := by
  decide!

/-- The descending octave scan after its first `n` iterations (`i = 127, ..., 128 - n`):
the slots from `116 - n` up to 127 are final, the others untouched. -/
theorem octaveDown_steps (t : KeyTable) (n : Nat) (hn : n ≤ 116) :
    (∀ k, 116 - n ≤ k → k < 128 →
        (((List.range n).foldl (fun ks s => foldDownStep ks (127 - s)) t k).isSome = true
          ↔ AssignedAbove t k))
      ∧ ∀ k, (k < 116 - n ∨ 128 ≤ k) →
          (List.range n).foldl (fun ks s => foldDownStep ks (127 - s)) t k = t k := by
  induction n with
  | zero =>
    refine ⟨?_, fun k _ => rfl⟩
    intro k hk hk2
    simp only [List.range_zero, List.foldl_nil]
    exact (assignedAbove_top t k (by omega) hk2).symm
  | succ n ih =>
    obtain ⟨ih1, ih2⟩ := ih (by omega)
    rw [List.range_succ, List.foldl_append]
    simp only [List.foldl_cons, List.foldl_nil]
    have htarget : 127 - n - 12 = 115 - n := by omega
    refine ⟨?_, ?_⟩
    · intro k hk hk2
      by_cases hkn : k = 115 - n
      · subst hkn
        have h1 := foldDownStep_target
          ((List.range n).foldl (fun ks s => foldDownStep ks (127 - s)) t) (127 - n)
        rw [htarget] at h1
        rw [h1, ih2 (115 - n) (Or.inl (by omega)), ih1 (127 - n) (by omega) (by omega),
          assignedAbove_step t (115 - n) (by omega)]
        have : 115 - n + 12 = 127 - n := by omega
        rw [this]
      · rw [foldDownStep_other _ (127 - n) k (by omega)]
        exact ih1 k (by omega) hk2
    · intro k hk
      rw [foldDownStep_other _ (127 - n) k (by omega)]
      exact ih2 k (by omega)

/-- C18.  After the octave-up and octave-down passes, a key `k` in `0 .. 127` has a pipe
if and only if some key `k2` in `0 .. 127` with `k2 ≡ k (mod 12)` had a pipe before the
passes (in particular after direct assignment). -/
theorem octaves_fill_pitch_class (keys : KeyTable) (k : Nat) (hk : k < 128) :
    (foldOctaves keys k).isSome = true
      ↔ ∃ k2, k2 < 128 ∧ k2 % 12 = k % 12 ∧ (keys k2).isSome = true := by
  have hfold : (foldUp 12 keys).1 = (List.range 116).foldl (foldUpStep 12) keys := by
    unfold foldUp
    norm_num
  have hup : ∀ m, m < 128 →
      (((foldUp 12 keys).1 m).isSome = true ↔ AssignedBelow keys m) := by
    intro m hm
    rw [hfold]
    exact (octaveUp_steps keys 116).1 m (by omega)
  have hdown : (foldOctaves keys k).isSome = true ↔ AssignedAbove (foldUp 12 keys).1 k := by
    unfold foldOctaves
    rw [descending_indices, List.foldl_map]
    exact (octaveDown_steps (foldUp 12 keys).1 116 (le_refl _)).1 k (by omega) hk
  rw [hdown]
  constructor
  · rintro ⟨j, hj, h⟩
    obtain ⟨j2, hj2, h2⟩ := (hup (k + 12 * j) hj).mp h
    exact ⟨k + 12 * j - 12 * j2, by omega, by omega, h2⟩
  · rintro ⟨k2, hk2, hmod, h⟩
    by_cases hle : k ≤ k2
    · refine ⟨(k2 - k) / 12, by omega, ?_⟩
      have he : k + 12 * ((k2 - k) / 12) = k2 := by omega
      rw [he]
      exact (hup k2 hk2).mpr ⟨0, by omega, by simpa using h⟩
    · refine ⟨0, by omega, ?_⟩
      have hk0 : k + 12 * 0 = k := by omega
      rw [hk0]
      apply (hup k hk).mpr
      refine ⟨(k - k2) / 12, by omega, ?_⟩
      have he : k - 12 * ((k - k2) / 12) = k2 := by omega
      rw [he]
      exact h

/-- C18 at the table `oneKey`: key 72, an octave above the only assigned key 60, has a
pipe after the octave passes. -/
theorem octaves_fill_pitch_class_witness :
    72 < 128
      ∧ ((foldOctaves oneKey 72).isSome = true
          ↔ ∃ k2, k2 < 128 ∧ k2 % 12 = 72 % 12 ∧ (oneKey k2).isSome = true) :=
  ⟨by decide, octaves_fill_pitch_class oneKey 72 (by decide)⟩

/-! ## Where the rounding of doubles shows -/

/-- The rounding of `ieeeOps` on familiar values: the double nearest to 0.1 is
`3602879701896397 / 2 ^ 55`, the quotient 500 / 96 is rounded down, a value that fits
53 bits is left alone, and `0.1 + 0.2` is the double just above `0.3`. -/
theorem roundDouble_samples :
    roundDouble (1 / 10) = 3602879701896397 / 36028797018963968
      ∧ ieeeOps.div 500 96 = 5864062014805333 / 1125899906842624
      ∧ ieeeOps.div 500 96 < 500 / 96
      ∧ roundDouble (8125 / 2) = 8125 / 2
      ∧ roundDouble (3 / 10) < ieeeOps.add (roundDouble (1 / 10)) (roundDouble (2 / 10)) := by
  decide!

/-- At tempo 120 with 96 ticks per beat, a note-off 1560 ticks after its note-on: the
exact quotient is 8125, but the double factor 500/96 is rounded down and the double
product is just below 8125, so the extracted note lasts 8124 ms.  After 780 ticks the
exact product is 4062.5 and would round half up to 4063; with doubles the clock
advances by 4062. -/
theorem rounded_product_falls_short :
    (extractNotes exactOps statusByteLib 120 defaultVolume 96
        [noteOnEvent, longOffEvent]).map Note.duration = [8125]
      ∧ (extractNotes ieeeOps statusByteLib 120 defaultVolume 96
          [noteOnEvent, longOffEvent]).map Note.duration = [8124]
      ∧ (extractFrom exactOps statusByteLib 96 (initExtractor exactOps 120 defaultVolume 96)
          [noteOnEvent, halfwayOffEvent]).currtime = 4063
      ∧ (extractFrom ieeeOps statusByteLib 96 (initExtractor ieeeOps 120 defaultVolume 96)
          [noteOnEvent, halfwayOffEvent]).currtime = 4062 := by
  decide!

/-- With the pipes of offsets 0, 1 and 2 on `tieWeights`, the candidates 60 and 61 have
the same exact sum; accumulated in doubles in pipe order, candidate 61 scores higher
and becomes the base note. -/
theorem rounded_scores_break_a_tie :
    score exactOps tieWeights [0, 1, 2] 60 = score exactOps tieWeights [0, 1, 2] 61
      ∧ bestBasenote exactOps tieWeights [0, 1, 2] = 60
      ∧ score ieeeOps tieWeights [0, 1, 2] 60 < score ieeeOps tieWeights [0, 1, 2] 61
      ∧ bestBasenote ieeeOps tieWeights [0, 1, 2] = 61 := by
  decide!

end MidiOrgan
